import Mathlib

/-!
Verification development for the `journey` note-taking core
(`src/vault.rs`, `src/config.rs`).

Strings are modelled as `List Char` (`Str`) so that every operation of the
Rust core — `str::lines`, `str::trim`, `str::contains`, `String::replace`,
`str::split`, `Vec::insert`, `join` — has a direct, kernel-computable
counterpart.  The file first embeds the data model and the operations of
the source, then states and proves the properties under scrutiny.
-/

namespace Journey

/-- Characters of a Rust string, in order. -/
abbrev Str := List Char

/-- Rust `char::is_whitespace` restricted to the characters that occur in
note files (space, tab, carriage return, newline). -/
def isWS (c : Char) : Bool := c.isWhitespace

/-- Leading-whitespace removal, the first half of Rust `str::trim`. -/
def trimL (s : Str) : Str := s.dropWhile isWS

/-- Trailing-whitespace removal, the second half of Rust `str::trim`. -/
def trimR (s : Str) : Str := (s.reverse.dropWhile isWS).reverse

/-- Rust `str::trim`: drop whitespace from both ends. -/
def trimS (s : Str) : Str := trimR (trimL s)

/-- Rust `str::contains` for a literal pattern: substring search. -/
def containsStr (s w : Str) : Bool :=
  match s with
  | [] => w.isEmpty
  | c :: t => w.isPrefixOf (c :: t) || containsStr t w

/-- Index of the first occurrence of a substring, Rust `str::find`. -/
def findSub (s w : Str) : Option Nat :=
  match s with
  | [] => if w.isEmpty then some 0 else none
  | c :: t =>
    if w.isPrefixOf (c :: t) then some 0
    else (findSub t w).map (· + 1)

/-- Fuelled worker for `replaceStr`; the fuel is an upper bound on the
input length, so the recursion is structural. -/
def replaceFuel (pat rep : Str) : Nat → Str → Str
  | _, [] => []
  | 0, s => s
  | Nat.succ n, c :: t =>
    if pat.isPrefixOf (c :: t) then rep ++ replaceFuel pat rep n (List.drop pat.length (c :: t))
    else c :: replaceFuel pat rep n t

/-- Worker for the empty-pattern case of Rust `String::replace`, which
matches at every character boundary. -/
def replaceEmptyPat (rep : Str) : Str → Str
  | [] => []
  | c :: t => c :: (rep ++ replaceEmptyPat rep t)

/-- Rust `String::replace`: replace all non-overlapping occurrences of
`pat` in `s` by `rep`, left to right. -/
def replaceStr (s pat rep : Str) : Str :=
  if pat.isEmpty then rep ++ replaceEmptyPat rep s
  else replaceFuel pat rep s.length s

/-- Rust `str::split(sep)` for a single-character separator. -/
def splitOnChar (sep : Char) : Str → List Str
  | [] => [[]]
  | c :: t =>
    if c = sep then [] :: splitOnChar sep t
    else
      match splitOnChar sep t with
      | [] => [[c]]
      | h :: r => (c :: h) :: r

/-- Rust `str::lines`: split at each `'\n'` and drop one final empty
segment produced by a trailing newline. -/
def rustLines (s : Str) : List Str :=
  let ps := splitOnChar '\n' s
  if ps.getLast? = some [] then ps.dropLast else ps

/-- Rust `Vec::<&str>::join("\n")`: interleave the lines with single
newlines (no trailing newline). -/
def joinLines : List Str → Str
  | [] => []
  | [l] => l
  | l :: m :: r => l ++ '\n' :: joinLines (m :: r)

/-- Rust `Vec::insert(i, x)` written with `take`/`drop`. -/
def insertAt (ls : List Str) (i : Nat) (x : Str) : List Str :=
  ls.take i ++ x :: ls.drop i

/-- Index of the first element satisfying `p`, the early-return loops of
`find_section` and `find_section_end`. -/
def firstIdx (p : Str → Bool) : List Str → Option Nat
  | [] => none
  | l :: t => if p l then some 0 else (firstIdx p t).map (· + 1)

/-- Index of the first occurrence of a character, Rust `str::find(char)`. -/
def firstCharIdx (c : Char) : Str → Option Nat
  | [] => none
  | x :: t => if x = c then some 0 else (firstCharIdx c t).map (· + 1)

end Journey

namespace Journey

/-- The two note representations of `config.rs` (`NoteFormat`). -/
inductive NoteFormat
  | bullet
  | table
deriving DecidableEq

/-- Errors of `errors.rs` (`JourneyError`), restricted to the variants the
note-storage core can produce. -/
inductive JourneyError
  | io : Str → JourneyError
  | config : Str → JourneyError
  | invalidDateFormat : Str → JourneyError
  | invalidTimeFormat : Str → JourneyError
deriving DecidableEq

/-- Fields of `config.rs` `VaultConfig` that the note-storage core reads.
The vault path, date-format and custom file-path-format fields only affect
path resolution, which the properties below do not touch. -/
structure VaultConfig where
  locale : Str
  phrases : List (Str × Str)
  sectionHeader : Option Str
  sectionHeaderWork : Option Str
  sectionHeaderPersonal : Option Str
  sectionHeaderHealth : Option Str
  sectionHeaderMeetings : Option Str
  tableHeaders : Option (Str × Str)
  templateFile : Option Str
  listType : Option NoteFormat
deriving DecidableEq

/-- Strings that `DateTimeHandler` and `chrono` derive from the note's
effective timestamp.  `date` is `format_date` (`%Y-%m-%d`), `time` is
`format_time`, `datetime` is `format_datetime` (`%H:%M:%S`), `yesterday`
and `tomorrow` are `format_date` of the adjacent days, `weekdayFull` and
`weekdayShort` are `%A` and `%a`, and `created` is
`%Y-%m-%d %H:%M:%S`.  The date arithmetic itself lives in `chrono` and is
abstracted here as the provided values. -/
structure DateView where
  date : Str
  time : Str
  datetime : Str
  yesterday : Str
  tomorrow : Str
  weekdayFull : Str
  weekdayShort : Str
  created : Str
deriving DecidableEq

/-- In-memory stand-in for the two files an `add_note` call can touch:
the day's note file and the configured template file.  `none` means the
file does not exist. -/
structure FileSys where
  noteFile : Option Str
  templateFile : Option Str
deriving DecidableEq

/-- Decidable equality of call results, used to evaluate the model on
concrete inputs. -/
instance {ε α : Type} [DecidableEq ε] [DecidableEq α] : DecidableEq (Except ε α) := by
  intro a b
  cases a <;> cases b
  case error.error x y =>
    exact if h : x = y then isTrue (by rw [h]) else isFalse (fun hc => h (by injection hc))
  case ok.ok x y =>
    exact if h : x = y then isTrue (by rw [h]) else isFalse (fun hc => h (by injection hc))
  case error.ok x y => exact isFalse (fun hc => Except.noConfusion hc)
  case ok.error x y => exact isFalse (fun hc => Except.noConfusion hc)

/-- Source `config.rs` `get_section_header`: a known category returns its
override field directly (even when that field is unset); otherwise the
default `section_header` is used. -/
def getSectionHeader (cfg : VaultConfig) (cat : Option Str) : Option Str :=
  match cat with
  | some c =>
    if c = ("work").toList then cfg.sectionHeaderWork
    else if c = ("personal").toList then cfg.sectionHeaderPersonal
    else if c = ("health").toList then cfg.sectionHeaderHealth
    else if c = ("meetings").toList then cfg.sectionHeaderMeetings
    else cfg.sectionHeader
  | none => cfg.sectionHeader

/-- Source `vault.rs` `get_table_headers`: custom override first, then the
locale-prefix chain, defaulting to the English pair. -/
def getTableHeaders (cfg : VaultConfig) : Str × Str :=
  match cfg.tableHeaders with
  | some h => h
  | none =>
    let loc := cfg.locale
    if ("no_").toList.isPrefixOf loc || ("nb_").toList.isPrefixOf loc
        || ("nn_").toList.isPrefixOf loc then (("Tid").toList, ("Innhold").toList)
    else if ("sv_").toList.isPrefixOf loc then (("Tid").toList, ("Innehåll").toList)
    else if ("da_").toList.isPrefixOf loc then (("Tid").toList, ("Indhold").toList)
    else if ("fi_").toList.isPrefixOf loc then (("Aika").toList, ("Sisältö").toList)
    else if ("de_").toList.isPrefixOf loc then (("Zeit").toList, ("Inhalt").toList)
    else if ("fr_").toList.isPrefixOf loc then (("Heure").toList, ("Contenu").toList)
    else if ("es_").toList.isPrefixOf loc then (("Hora").toList, ("Contenido").toList)
    else if ("it_").toList.isPrefixOf loc then (("Ora").toList, ("Contenuto").toList)
    else if ("nl_").toList.isPrefixOf loc then (("Tijd").toList, ("Inhoud").toList)
    else if ("pt_").toList.isPrefixOf loc then (("Hora").toList, ("Conteúdo").toList)
    else if ("ru_").toList.isPrefixOf loc then (("Время").toList, ("Содержание").toList)
    else if ("ja_").toList.isPrefixOf loc then (("時間").toList, ("内容").toList)
    else if ("zh_").toList.isPrefixOf loc then (("时间").toList, ("内容").toList)
    else (("Time").toList, ("Content").toList)

/-- Sorting step of `expand_phrases`: Rust's stable `sort_by` on
`b.0.len().cmp(&a.0.len())` (phrase length descending), modelled by the
stable insertion sort — any two stable sorts under the same total
preorder produce the same list. -/
def sortPhrases (ps : List (Str × Str)) : List (Str × Str) :=
  List.insertionSort (fun a b => b.1.length ≤ a.1.length) ps

/-- Source `vault.rs` `expand_phrases`: sort the phrase map by phrase
length descending, then run one `String::replace` pass per phrase, longest
phrases first. -/
def expandPhrases (cfg : VaultConfig) (content : Str) : Str :=
  (sortPhrases cfg.phrases).foldl (fun acc p => replaceStr acc p.1 p.2) content

/-- Source `vault.rs` `format_note_entry`. -/
def formatNoteEntry (timestamp content : Str) : NoteFormat → Str
  | NoteFormat.bullet => ("- ").toList ++ timestamp ++ [' '] ++ content ++ ['\n']
  | NoteFormat.table => ("| ").toList ++ timestamp ++ (" | ").toList ++ content ++ (" |\n").toList

/-- Shape test used by `detect_note_format` for bullet rows:
`trimmed.starts_with("- ")`. -/
def isBulletLine (l : Str) : Bool := ("- ").toList.isPrefixOf (trimS l)

/-- Shape test used by `detect_note_format` for table rows:
`trimmed.starts_with("|") && trimmed.contains("|") && !trimmed.starts_with("|---")`. -/
def isTableishLine (l : Str) : Bool :=
  let t := trimS l
  ("|").toList.isPrefixOf t && containsStr t (("|").toList) && !("|---").toList.isPrefixOf t

/-- Source `vault.rs` `detect_note_format`. -/
def detectNoteFormat (content : Str) : Option NoteFormat :=
  let lines := rustLines content
  let hasBullet := lines.any isBulletLine
  let hasTable := lines.any isTableishLine
  if hasBullet && !hasTable then some NoteFormat.bullet
  else if hasTable && !hasBullet then some NoteFormat.table
  else none

/-- Data-row test of `clean_table_blank_lines` (and of the conversion's
table-to-bullet branch): starts with `"|"`, not a separator, and mentions
neither literal `"Time"` nor literal `"Content"`. -/
def isCleanDataRow (l : Str) : Bool :=
  let t := trimS l
  ("|").toList.isPrefixOf t && !("|---").toList.isPrefixOf t
    && !containsStr t (("Time").toList) && !containsStr t (("Content").toList)

/-- Header/separator test of `clean_table_blank_lines`: starts with `"|"`
and mentions `"Time"` or `"Content"` or is a separator. -/
def isCleanHeaderSep (l : Str) : Bool :=
  let t := trimS l
  ("|").toList.isPrefixOf t
    && (containsStr t (("Time").toList) || containsStr t (("Content").toList)
        || ("|---").toList.isPrefixOf t)

/-- Blank-line test `trimmed.is_empty()`. -/
def isBlankLine (l : Str) : Bool := (trimS l).isEmpty

/-- State machine of `clean_table_blank_lines`: `inT` is `in_table`,
`lastRow` is `last_was_table_row`. -/
def cleanAux : Bool → Bool → List Str → List Str
  | _, _, [] => []
  | inT, lastRow, l :: rest =>
    if isCleanDataRow l then l :: cleanAux true true rest
    else if isCleanHeaderSep l then l :: cleanAux true false rest
    else if isBlankLine l then
      (if !inT || !lastRow then [l] else []) ++ cleanAux inT false rest
    else l :: cleanAux false false rest

/-- Source `vault.rs` `clean_table_blank_lines`. -/
def cleanTableBlankLines (content : Str) : Str :=
  joinLines (cleanAux false false (rustLines content))

/-- Source `vault.rs` `parse_bullet_note`. -/
def parseBulletNote (line : Str) : Option (Str × Str) :=
  match findSub line (("- ").toList) with
  | none => none
  | some st =>
    let afterDash := line.drop (st + 2)
    match firstCharIdx ' ' afterDash with
    | none => none
    | some sp => some (afterDash.take sp, trimS (afterDash.drop (sp + 1)))

/-- Source `vault.rs` `parse_table_note`. -/
def parseTableNote (line : Str) : Option (Str × Str) :=
  let parts := splitOnChar '|' line
  if 3 ≤ parts.length then some (trimS (parts.getD 1 []), trimS (parts.getD 2 []))
  else none

/-- Loop body of `convert_note_format_if_needed`; the Boolean argument is
`first_note_found`. -/
def convertAux (cfg : VaultConfig) (target : NoteFormat) : Bool → List Str → List Str
  | _, [] => []
  | fnf, l :: rest =>
    let t := trimS l
    if target = NoteFormat.table ∧ ("- ").toList.isPrefixOf t then
      (if fnf then [] else
        [("| ").toList ++ (getTableHeaders cfg).1 ++ (" | ").toList
          ++ (getTableHeaders cfg).2 ++ (" |").toList,
         ("|------|----------|").toList]) ++
      (match parseBulletNote t with
        | some p => [("| ").toList ++ p.1 ++ (" | ").toList ++ p.2 ++ (" |").toList]
        | none => [l]) ++ convertAux cfg target true rest
    else if target = NoteFormat.table ∧ isBlankLine l ∧ fnf = true then
      convertAux cfg target fnf rest
    else if target = NoteFormat.bullet ∧ ("|").toList.isPrefixOf t
        ∧ ¬("|---").toList.isPrefixOf t ∧ ¬containsStr t (("Time").toList) = true
        ∧ ¬containsStr t (("Content").toList) = true then
      (match parseTableNote t with
        | some p => [("- ").toList ++ p.1 ++ [' '] ++ p.2]
        | none => [l]) ++ convertAux cfg target fnf rest
    else if target = NoteFormat.bullet ∧ ("|").toList.isPrefixOf t
        ∧ (containsStr t (("Time").toList) = true ∨ containsStr t (("Content").toList) = true
            ∨ ("|---").toList.isPrefixOf t = true) then
      convertAux cfg target fnf rest
    else if target = NoteFormat.bullet ∧ isBlankLine l then
      convertAux cfg target fnf rest
    else l :: convertAux cfg target fnf rest

/-- Source `vault.rs` `convert_note_format_if_needed`.  The Rust function
returns `Result` but has no error path, so the embedding returns the
converted text directly. -/
def convertNoteFormatIfNeeded (cfg : VaultConfig) (content : Str) (target : NoteFormat) : Str :=
  let current := detectNoteFormat content
  if current = none ∨ current = some target then
    if target = NoteFormat.table then cleanTableBlankLines content else content
  else joinLines (convertAux cfg target false (rustLines content))

/-- Source `vault.rs` `find_section` (first heading line containing the
section name; the `'#'` test is on the trimmed line, the name test on the
untrimmed line). -/
def findSection (content : Str) (name : Str) : Option Nat :=
  firstIdx (fun l => ("#").toList.isPrefixOf (trimS l) && containsStr l name) (rustLines content)

/-- Source `vault.rs` `find_section_end`: index of the next heading after
`s`, or the number of lines. -/
def findSectionEnd (lines : List Str) (s : Nat) : Nat :=
  match firstIdx (fun l => ("#").toList.isPrefixOf (trimS l)) (lines.drop (s + 1)) with
  | some k => s + 1 + k
  | none => lines.length

/-- Source `vault.rs` `find_section_content_end`: one past the last
non-blank line of the section body, or `s + 1` when the body is blank. -/
def findSectionContentEnd (lines : List Str) (s : Nat) : Nat :=
  let e := findSectionEnd lines s
  (List.range' (s + 1) (e - (s + 1))).foldl
    (fun acc i => if !isBlankLine (lines.getD i []) then i + 1 else acc) (s + 1)

/-- Source `vault.rs` `create_default_file_content`. -/
def createDefaultFileContent (cfg : VaultConfig) (dv : DateView) (cat : Option Str)
    (entry : Str) : Str :=
  let front := ("---\ndate: ").toList ++ dv.date ++ ("\n---\n\n").toList
  let withSection :=
    match getSectionHeader cfg cat with
    | some sec => front ++ ("# ").toList ++ sec ++ ("\n\n").toList
    | none => front
  let fmt := cfg.listType.getD NoteFormat.bullet
  let withTable :=
    if fmt = NoteFormat.table then
      withSection ++ ("| ").toList ++ (getTableHeaders cfg).1 ++ (" | ").toList
        ++ (getTableHeaders cfg).2 ++ (" |\n").toList ++ ("|------|----------|\n").toList
    else withSection
  withTable ++ entry

/-- Source `vault.rs` `create_file_from_template`: the exact sequence of
`String::replace` calls, in source order, followed by the note-placeholder
handling.  Braces in the token literals are written with `\x7b`/`\x7d`
escapes. -/
def createFileFromTemplate (cfg : VaultConfig) (dv : DateView) (templateContent entry : Str) :
    Str :=
  let p0 := templateContent
  let p1 := replaceStr p0 (("\x7b\x7bdate\x7d\x7d").toList) dv.date
  let p2 := replaceStr p1 (("\x7b\x7btime\x7d\x7d").toList) dv.time
  let p3 := replaceStr p2 (("\x7b\x7bdatetime\x7d\x7d").toList) dv.datetime
  let p4 := replaceStr p3 (("\x7byesterday\x7d").toList) dv.yesterday
  let p5 := replaceStr p4 (("\x7btomorrow\x7d").toList) dv.tomorrow
  let p6 := replaceStr p5 (("\x7b\x7byesterday\x7d\x7d").toList) dv.yesterday
  let p7 := replaceStr p6 (("\x7b\x7btomorrow\x7d\x7d").toList) dv.tomorrow
  let p8 := replaceStr p7 (("\x7bweekday\x7d").toList) dv.weekdayFull
  let p9 := replaceStr p8 (("\x7b\x7bweekday\x7d\x7d").toList) dv.weekdayFull
  let p10 := replaceStr p9 (("\x7bWeekday\x7d").toList) dv.weekdayShort
  let p11 := replaceStr p10 (("\x7b\x7bWeekday\x7d\x7d").toList) dv.weekdayShort
  let p12 := replaceStr p11 (("\x7bcreated\x7d").toList) dv.created
  let p13 := replaceStr p12 (("\x7b\x7bcreated\x7d\x7d").toList) dv.created
  let p14 := replaceStr p13 (("\x7btoday\x7d").toList) dv.date
  let p15 := replaceStr p14 (("\x7b\x7btoday\x7d\x7d").toList) dv.date
  let p16 :=
    match cfg.sectionHeader with
    | some sh =>
      replaceStr (replaceStr p15 (("\x7b\x7bsection_header\x7d\x7d").toList) sh)
        (("\x7bsection_header\x7d").toList) sh
    | none => p15
  if ¬containsStr p16 (("\x7b\x7bnote\x7d\x7d").toList) = true
      ∧ ¬containsStr p16 (("\x7bnote\x7d").toList) = true then
    p16 ++ entry
  else
    replaceStr (replaceStr p16 (("\x7b\x7bnote\x7d\x7d").toList) entry)
      (("\x7bnote\x7d").toList) entry

/-- Source `vault.rs` `add_note`, acting on the in-memory `FileSys`.
`timeNow` is `format_datetime(timestamp)`; `dv` carries the other
timestamp-derived strings; directory creation is omitted (it touches no
file content). -/
def addNote (cfg : VaultConfig) (dv : DateView) (content timeNow : Str) (cat : Option Str)
    (fs : FileSys) : Except JourneyError FileSys :=
  let expanded := expandPhrases cfg content
  let fmt := cfg.listType.getD NoteFormat.bullet
  let entry := formatNoteEntry timeNow expanded fmt
  match fs.noteFile with
  | some existing =>
    let converted := convertNoteFormatIfNeeded cfg existing fmt
    match getSectionHeader cfg cat with
    | some sec =>
      match findSection converted sec with
      | some s =>
        let lines := rustLines converted
        let ce := findSectionContentEnd lines s
        Except.ok (FileSys.mk (some (joinLines (insertAt lines ce entry))) fs.templateFile)
      | none =>
        let base := if converted.getLast? = some '\n' then converted else converted ++ ['\n']
        Except.ok (FileSys.mk
          (some (base ++ ['\n'] ++ ("# ").toList ++ sec ++ ['\n'] ++ entry)) fs.templateFile)
    | none => Except.ok (FileSys.mk (some (converted ++ entry)) fs.templateFile)
  | none =>
    match cfg.templateFile with
    | some tf =>
      match fs.templateFile with
      | some tc =>
        Except.ok (FileSys.mk (some (createFileFromTemplate cfg dv tc entry)) fs.templateFile)
      | none =>
        Except.error (JourneyError.io
          (("Failed to read template file '").toList ++ tf ++ ("': file not found").toList))
    | none =>
      Except.ok (FileSys.mk (some (createDefaultFileContent cfg dv cat entry)) fs.templateFile)

/-- Filter used by `list_notes` on each scanned line. -/
def keepNoteLine (cfg : VaultConfig) (l : Str) : Bool :=
  let t := trimS l
  if ("- ").toList.isPrefixOf t then true
  else if ("|").toList.isPrefixOf t && !("|---").toList.isPrefixOf t
      && containsStr t (("|").toList) then
    !containsStr t (getTableHeaders cfg).1 && !containsStr t (getTableHeaders cfg).2
      && !containsStr t (("Note").toList)
  else false

/-- Source `vault.rs` `list_notes`, acting on the note file's content
(`none` when the file is absent). -/
def listNotes (cfg : VaultConfig) (file : Option Str) (cat : Option Str) : List Str :=
  match file with
  | none => []
  | some content =>
    let lines := rustLines content
    match getSectionHeader cfg cat with
    | some sec =>
      match findSection content sec with
      | some s =>
        let e := findSectionEnd lines s
        ((lines.drop s).take (e - s)).filter (keepNoteLine cfg)
      | none => []
    | none => lines.filter (keepNoteLine cfg)

end Journey

namespace Journey

/-! ### Concrete fixtures used by the theorems below -/

/-- English-locale vault configured for Table representation, no phrases,
no sections, no template. -/
def cfgTableEn : VaultConfig :=
  VaultConfig.mk (("en_US.UTF-8").toList) [] none none none none none none none
    (some NoteFormat.table)

/-- Timestamp view for 2025-10-26 00:05:28 (a Sunday). -/
def exDv : DateView :=
  DateView.mk (("2025-10-26").toList) (("00:05:28").toList) (("00:05:28").toList)
    (("2025-10-25").toList) (("2025-10-27").toList) (("Sunday").toList) (("Sun").toList)
    (("2025-10-26 00:05:28").toList)

/-- Phrase map of the specification example, one iteration order. -/
def cfgPhrasesA : VaultConfig :=
  VaultConfig.mk (("en_US").toList)
    [((("@work").toList), (("Working").toList)), ((("@workout").toList), (("Gym").toList))]
    none none none none none none none none

/-- Phrase map of the specification example, the other iteration order. -/
def cfgPhrasesB : VaultConfig :=
  VaultConfig.mk (("en_US").toList)
    [((("@workout").toList), (("Gym").toList)), ((("@work").toList), (("Working").toList))]
    none none none none none none none none

/-- Phrase map whose longer phrase expands to text containing the shorter
phrase, one iteration order. -/
def cfgPhrasesC : VaultConfig :=
  VaultConfig.mk (("en_US").toList)
    [((("@work").toList), (("Office").toList)), ((("@workout").toList), (("Gym @work").toList))]
    none none none none none none none none

/-- Phrase map whose longer phrase expands to text containing the shorter
phrase, the other iteration order. -/
def cfgPhrasesD : VaultConfig :=
  VaultConfig.mk (("en_US").toList)
    [((("@workout").toList), (("Gym @work").toList)), ((("@work").toList), (("Office").toList))]
    none none none none none none none none

/-- Vault with a default section header but no category overrides. -/
def cfgC5 : VaultConfig :=
  VaultConfig.mk (("en_US").toList) [] (some (("Notes").toList)) none none none none none
    none none

/-- Norwegian-locale vault (table header labels `Tid`/`Innhold`),
Bullet representation. -/
def cfgC9 : VaultConfig :=
  VaultConfig.mk (("no_NO").toList) [] none none none none none none none
    (some NoteFormat.bullet)

/-- Table-format file whose third data row mentions the literal word
`Content` inside ordinary note content. -/
def c9Input : Str :=
  ("| Tid | Innhold |\n|------|----------|\n| 10:00:00 | Content review |\n| 10:30:00 | lunch |").toList

/-- Timestamp view for 2025-10-24 14:30:00 (a Friday). -/
def dvC4 : DateView :=
  DateView.mk (("2025-10-24").toList) (("14:30:00").toList) (("14:30:00").toList)
    (("2025-10-23").toList) (("2025-10-25").toList) (("Friday").toList) (("Fri").toList)
    (("2025-10-24 14:30:00").toList)

/-- Vault with a default section header, used for template substitution. -/
def cfgC4 : VaultConfig :=
  VaultConfig.mk (("en_US").toList) [] (some (("Daily").toList)) none none none none none
    none none

/-- Template containing every token of the source's substitution list,
bare and doubled forms, separated by semicolons. -/
def tmplC4 : Str :=
  ("\x7bdate\x7d;\x7btime\x7d;\x7bdatetime\x7d;\x7b\x7bdate\x7d\x7d;\x7b\x7btime\x7d\x7d;\x7b\x7bdatetime\x7d\x7d;\x7bcreated\x7d;\x7b\x7bcreated\x7d\x7d;\x7btoday\x7d;\x7b\x7btoday\x7d\x7d;\x7byesterday\x7d;\x7b\x7byesterday\x7d\x7d;\x7btomorrow\x7d;\x7b\x7btomorrow\x7d\x7d;\x7bweekday\x7d;\x7b\x7bweekday\x7d\x7d;\x7bWeekday\x7d;\x7b\x7bWeekday\x7d\x7d;\x7bsection_header\x7d;\x7b\x7bsection_header\x7d\x7d;\x7bnote\x7d").toList

/-- Existing Table-format note file with one data row, ending in a
newline, exactly as `add_note` itself would have written it. -/
def c2File : Str :=
  ("---\ndate: 2025-10-26\n---\n\n| Time | Content |\n|------|----------|\n| 00:04:43 | Test1 |\n").toList

/-- Vault whose template file is configured but absent on disk. -/
def cfgC8 : VaultConfig :=
  VaultConfig.mk (("en_US").toList) [] none none none none none none
    (some (("~/templates/daily.md").toList)) (some NoteFormat.table)

/-- Total wrapper around `addNote`: the resulting file system, with a
failed call leaving the input file system untouched (the source aborts
before any `fs::write` on the failing path). -/
def runAddNote (cfg : VaultConfig) (dv : DateView) (content timeNow : Str) (cat : Option Str)
    (fs : FileSys) : FileSys :=
  match addNote cfg dv content timeNow cat fs with
  | Except.ok fs2 => fs2
  | Except.error _ => fs

end Journey

namespace Journey

/-- Heading-line shape used by `find_section` / `find_section_end`:
`line.trim().starts_with('#')`. -/
def isHeadingLine (l : Str) : Bool := ("#").toList.isPrefixOf (trimS l)

/-- Data-row shape as the claim about `list_notes` reads it: a bullet row,
or a table row that is neither the separator nor a header row (a row
containing a configured header label).  The source additionally drops any
row containing the literal `Note`, which this claim-side notion does not. -/
def claimedDataRow (cfg : VaultConfig) (l : Str) : Bool :=
  let t := trimS l
  if ("- ").toList.isPrefixOf t then true
  else if ("|").toList.isPrefixOf t && !("|---").toList.isPrefixOf t
      && containsStr t (("|").toList) then
    !containsStr t (getTableHeaders cfg).1 && !containsStr t (getTableHeaders cfg).2
  else false

/-- Listing as claim C6 describes it: the data-row lines of the scanned
range, excluding only header and separator rows. -/
def listNotesClaimed (cfg : VaultConfig) (file : Option Str) (cat : Option Str) : List Str :=
  match file with
  | none => []
  | some content =>
    let lines := rustLines content
    match getSectionHeader cfg cat with
    | some sec =>
      match findSection content sec with
      | some s =>
        let e := findSectionEnd lines s
        ((lines.drop s).take (e - s)).filter (claimedDataRow cfg)
      | none => []
    | none => lines.filter (claimedDataRow cfg)

/-- Section-scoped listing facts: the result is the filter of exactly the
line range from the heading to the next heading, the start line is a
heading containing the configured name, no interior line is a heading, and
the range ends at the next heading or at end of file. -/
def sectionListingSpec (cfg : VaultConfig) (content : Str) (cat : Option Str) (sec : Str)
    (s : Nat) : Prop :=
  listNotes cfg (some content) cat
    = (((rustLines content).drop s).take
        (findSectionEnd (rustLines content) s - s)).filter (keepNoteLine cfg)
  ∧ s < (rustLines content).length
  ∧ isHeadingLine ((rustLines content).getD s []) = true
  ∧ containsStr ((rustLines content).getD s []) sec = true
  ∧ (∀ j, s < j → j < findSectionEnd (rustLines content) s →
      isHeadingLine ((rustLines content).getD j []) = false)
  ∧ (findSectionEnd (rustLines content) s = (rustLines content).length
      ∨ (findSectionEnd (rustLines content) s < (rustLines content).length
          ∧ isHeadingLine
              ((rustLines content).getD (findSectionEnd (rustLines content) s) []) = true))

/-- Vault with a default section header `Notes`, Table representation. -/
def cfgC6 : VaultConfig :=
  VaultConfig.mk (("en_US").toList) [] (some (("Notes").toList)) none none none none none
    none (some NoteFormat.table)

/-- Note file whose `Notes` section holds two table data rows, the first
of which mentions the word `Note` inside ordinary content. -/
def c6File : Str :=
  ("# Notes\n| Time | Content |\n|------|----------|\n| 10:00:00 | Note to self |\n| 11:00:00 | lunch |\n# Other\n- 1 x\n").toList

/-- Bullet rendering of a `(time, content)` pair, the line shape
`- <time> <content>` that `format_note_entry` writes (without the trailing
newline, which `join` management adds back). -/
def mkBulletLine (p : Str × Str) : Str :=
  ("- ").toList ++ p.1 ++ [' '] ++ p.2

/-- Table rendering of a `(time, content)` pair, the row shape
`| <time> | <content> |` that the converter writes. -/
def mkTableRow (p : Str × Str) : Str :=
  ("| ").toList ++ p.1 ++ (" | ").toList ++ p.2 ++ (" |").toList

/-- File body holding one bullet entry per line. -/
def mkBulletBody (es : List (Str × Str)) : Str :=
  joinLines (es.map mkBulletLine)

/-- Header row the bullet-to-table conversion synthesizes. -/
def hdrRow (cfg : VaultConfig) : Str :=
  ("| ").toList ++ (getTableHeaders cfg).1 ++ (" | ").toList
    ++ (getTableHeaders cfg).2 ++ (" |").toList

/-- Separator row the bullet-to-table conversion synthesizes. -/
def sepRow : Str := ("|------|----------|").toList

/-- Ordered `(time, content)` pairs of a bullet-format body, read back the
way the converter reads bullet rows. -/
def bulletPairs (content : Str) : List (Str × Str) :=
  (rustLines content).filterMap (fun l => parseBulletNote (trimS l))

/-- Claim C3's round trip: convert a body to Table representation, then
convert the result back to Bullet representation. -/
def roundTrip (cfg : VaultConfig) (content : Str) : Str :=
  convertNoteFormatIfNeeded cfg (convertNoteFormatIfNeeded cfg content NoteFormat.table)
    NoteFormat.bullet

/-- Entries whose rendered rows survive both parsers unchanged: the time
is a nonempty run of non-whitespace, non-`|` characters; the content is
nonempty, free of newlines and `|`, and has no whitespace at either end;
and the rendered table row does not mention the literal `Time` or
`Content` (otherwise the table-to-bullet conversion deletes it, claim C9). -/
def GoodEntry (p : Str × Str) : Prop :=
  p.1 ≠ []
  ∧ (∀ c ∈ p.1, isWS c = false ∧ c ≠ '|')
  ∧ p.2 ≠ []
  ∧ isWS (p.2.headD '.') = false
  ∧ isWS (p.2.getLastD '.') = false
  ∧ (∀ c ∈ p.2, c ≠ '\n' ∧ c ≠ '|')
  ∧ containsStr (mkTableRow p) (("Time").toList) = false
  ∧ containsStr (mkTableRow p) (("Content").toList) = false

/-- Configurations whose synthesized header row is recognized as a header
on the way back (its text mentions the literal `Time` or `Content`) and
whose header labels contain no newline. -/
def GoodHeaderCfg (cfg : VaultConfig) : Prop :=
  (containsStr (hdrRow cfg) (("Time").toList) = true
    ∨ containsStr (hdrRow cfg) (("Content").toList) = true)
  ∧ (∀ c ∈ (getTableHeaders cfg).1, c ≠ '\n')
  ∧ (∀ c ∈ (getTableHeaders cfg).2, c ≠ '\n')

/-- Sample entries for the round-trip property. -/
def exEntries : List (Str × Str) :=
  [((("10:00:00").toList), (("hello world").toList)),
   ((("10:30:00").toList), (("lunch").toList))]


/-- Scanner for the amended starting condition: `true` iff no table data
row is followed by two or more blank lines before the next non-blank line.
State: 0 = not directly after a data row, 1 = directly after a data row,
2 = after a data row with one blank line seen since. -/
def preAux : Nat → List Str → Bool
  | _, [] => true
  | s, l :: rest =>
    if isCleanDataRow l then preAux 1 rest
    else if isBlankLine l then (s != 2) && preAux (if s = 0 then 0 else 2) rest
    else preAux 0 rest

/-- Scanner for the maintained invariant: `true` iff no blank line
directly follows a table data row.  The Boolean state records whether the
previous line was a data row. -/
def nbarAux : Bool → List Str → Bool
  | _, [] => true
  | prevRow, l :: rest =>
    if isCleanDataRow l then nbarAux true rest
    else if isBlankLine l then !prevRow && nbarAux false rest
    else nbarAux false rest

/-- Scanner for the claimed property: `true` iff some blank line lies
strictly between two table data rows that have only blank lines between
them.  State as in `preAux`. -/
def gapAux : Nat → List Str → Bool
  | _, [] => false
  | s, l :: rest =>
    if isCleanDataRow l then (s == 2) || gapAux 1 rest
    else if isBlankLine l then gapAux (if s = 0 then 0 else 2) rest
    else gapAux 0 rest

/-- A file text has a row gap when a blank line sits strictly between two
consecutive table data rows. -/
def hasRowGap (content : Str) : Bool := gapAux 0 (rustLines content)

/-- Shape of the last line every Table-mode write leaves behind: it starts
with the table-row opener and ends with a pipe. -/
def lastGood (l : Str) : Bool := ("| ").toList.isPrefixOf l && (l.getLastD '.' == '|')

/-- Append text onto the last line of a line list: the effect, on the line
view, of pushing newline-free text onto a joined file. -/
def mergeLast (ls : List Str) (x : Str) : List Str :=
  match ls with
  | [] => [x]
  | _ :: _ => ls.dropLast ++ [ls.getLastD [] ++ x]

/-- A sequence of `add_note` requests `(content, timestamp, category)`,
executed left to right on a file system. -/
def runCalls (cfg : VaultConfig) (dv : DateView) (calls : List (Str × Str × Option Str))
    (fs : FileSys) : FileSys :=
  calls.foldl (fun a cl => runAddNote cfg dv cl.1 cl.2.1 cl.2.2 a) fs

/-- Per-call side conditions of the amended claim: the timestamp text and
the phrase-expanded content are newline-free, and the call's category has
no section scoping. -/
def CallOK (cfg : VaultConfig) (cl : Str × Str × Option Str) : Prop :=
  (∀ c ∈ cl.2.1, c ≠ '\n') ∧ (∀ c ∈ expandPhrases cfg cl.1, c ≠ '\n')
    ∧ getSectionHeader cfg cl.2.2 = none

/-- File-state invariant maintained by Table-mode `add_note`: no blank
line directly follows a data row, the file has at least one line, and the
last line is table-row shaped. -/
def tableInv (content : Str) : Prop :=
  nbarAux false (rustLines content) = true ∧ rustLines content ≠ []
    ∧ lastGood ((rustLines content).getLastD []) = true

/-- Starting file with two blank lines between two table data rows. -/
def c1GapFile : Str :=
  ("| Time | Content |\n|------|----------|\n| 00:04:43 | a |\n\n\n| 00:05:28 | b |\n").toList

/-- Starting file with a single blank line after the table, before closing
text. -/
def c1TailFile : Str :=
  ("| Time | Content |\n|------|----------|\n| 00:04:43 | a |\n\nEpilogue\n").toList

/-- Sample call list for the invariant theorem. -/
def exCalls : List (Str × Str × Option Str) :=
  [((("hello").toList), (("10:00:00").toList), none),
   ((("world").toList), (("11:00:00").toList), none)]

/-! ### General lemmas -/

/-- A list contains any middle factor of itself. -/
theorem containsStr_of_eq_append (s a w b : Str) (h : s = a ++ w ++ b) :
    containsStr s w = true := by
  subst h
  induction a with
  | nil =>
    cases w with
    | nil => cases b <;> simp [containsStr, List.isPrefixOf]
    | cons c t =>
      have hpre : (c :: t).isPrefixOf ((c :: t) ++ b) = true := by
        rw [List.isPrefixOf_iff_prefix]
        exact List.prefix_append (c :: t) b
      show containsStr (c :: (t ++ b)) (c :: t) = true
      unfold containsStr
      rw [show c :: (t ++ b) = (c :: t) ++ b from rfl, hpre]
      simp
  | cons c a ih =>
    show containsStr (c :: (a ++ w ++ b)) w = true
    unfold containsStr
    rw [Bool.or_eq_true]
    exact Or.inr ih

/-! ### Theorems about the claims -/

set_option maxRecDepth 100000

/-- Claim C7: phrase expansion sorts the configured phrases by length
descending and performs one substring-replace pass per phrase in that
order; the mapping `@work → Working, @workout → Gym` (in either iteration
order of the map) applied to `Did @workout today` yields `Did Gym today`,
never `Did Workingout today`. -/
theorem claim7_theorem :
    (∀ ps : List (Str × Str),
      List.Pairwise (fun a b : Str × Str => b.1.length ≤ a.1.length) (sortPhrases ps))
    ∧ expandPhrases cfgPhrasesA (("Did @workout today").toList) = ("Did Gym today").toList
    ∧ expandPhrases cfgPhrasesB (("Did @workout today").toList) = ("Did Gym today").toList := by
  refine ⟨?_, by decide, by decide⟩
  intro ps
  haveI : IsTotal (Str × Str) (fun a b : Str × Str => b.1.length ≤ a.1.length) :=
    ⟨fun a b => (Nat.le_total b.1.length a.1.length)⟩
  haveI : IsTrans (Str × Str) (fun a b : Str × Str => b.1.length ≤ a.1.length) :=
    ⟨fun _ _ _ h1 h2 => Nat.le_trans h2 h1⟩
  exact List.sorted_insertionSort (fun a b : Str × Str => b.1.length ≤ a.1.length) ps

/-- Claim C10: phrase expansion is sequential, so replacement text
inserted for a longer phrase is rescanned by the remaining shorter
phrases: with `@workout → Gym @work` and `@work → Office` (either
iteration order), `Did @workout today` expands to `Did Gym Office today`,
the shorter phrase's expansion embedded inside the longer one's
replacement. -/
theorem claim10_theorem :
    expandPhrases cfgPhrasesC (("Did @workout today").toList) = ("Did Gym Office today").toList
    ∧ expandPhrases cfgPhrasesD (("Did @workout today").toList) = ("Did Gym Office today").toList
    ∧ containsStr (expandPhrases cfgPhrasesC (("Did @workout today").toList))
        (("Gym Office").toList) = true := by
  refine ⟨by decide, by decide, by decide⟩

/-- Claim C5 counterexample: with a default section header configured and
no `work` override, the category `work` yields no section header at all,
not the default — refuting the claimed fallback. -/
theorem claim5_counterexample :
    getSectionHeader cfgC5 (some (("work").toList)) = none
    ∧ cfgC5.sectionHeader = some (("Notes").toList)
    ∧ cfgC5.sectionHeaderWork = none := by
  refine ⟨by decide, by decide, by decide⟩

/-- Claim C5 (amended): one of the four known categories (`work`,
`personal`, `health`, `meetings`) always maps to its own override field —
even when that field is unset, in which case no section scoping applies
and the default is not consulted; an unknown or absent category falls back
to the vault's default section header. -/
theorem claim5_theorem (cfg : VaultConfig) (c : Str) :
    getSectionHeader cfg none = cfg.sectionHeader
    ∧ (c = ("work").toList → getSectionHeader cfg (some c) = cfg.sectionHeaderWork)
    ∧ (c = ("personal").toList → getSectionHeader cfg (some c) = cfg.sectionHeaderPersonal)
    ∧ (c = ("health").toList → getSectionHeader cfg (some c) = cfg.sectionHeaderHealth)
    ∧ (c = ("meetings").toList → getSectionHeader cfg (some c) = cfg.sectionHeaderMeetings)
    ∧ (c ≠ ("work").toList → c ≠ ("personal").toList → c ≠ ("health").toList →
        c ≠ ("meetings").toList → getSectionHeader cfg (some c) = cfg.sectionHeader) := by
  refine ⟨rfl, ?_, ?_, ?_, ?_, ?_⟩
  · intro h; subst h; simp [getSectionHeader]
  · intro h; subst h; simp [getSectionHeader]
  · intro h; subst h; simp [getSectionHeader]
  · intro h; subst h; simp [getSectionHeader]
  · intro h1 h2 h3 h4
    simp only [getSectionHeader]
    rw [if_neg h1, if_neg h2, if_neg h3, if_neg h4]

/-- Claim C5 witness: the amended theorem applied to the fixture vault at
category `work`. -/
theorem claim5_witness :
    getSectionHeader cfgC5 (some (("work").toList)) = cfgC5.sectionHeaderWork :=
  (claim5_theorem cfgC5 (("work").toList)).2.1 rfl

/-- Claim C9: converting a Table file to Bullet deletes every row whose
text contains the literal `Time` or `Content`, regardless of the
locale-derived header labels (here Norwegian `Tid`/`Innhold`): the genuine
data row `| 10:00:00 | Content review |` is lost, while the actual header
row is converted as if it were data. -/
theorem claim9_theorem :
    convertNoteFormatIfNeeded cfgC9 c9Input NoteFormat.bullet
      = ("- Tid Innhold\n- 10:30:00 lunch").toList
    ∧ containsStr c9Input (("| 10:00:00 | Content review |").toList) = true
    ∧ containsStr (convertNoteFormatIfNeeded cfgC9 c9Input NoteFormat.bullet)
        (("Content review").toList) = false := by
  refine ⟨by decide, by decide, by decide⟩

/-- Claim C4 counterexample: the bare form `{date}` is not substituted at
all, and the doubled form `{{created}}` is left as the value wrapped in
one brace pair (the bare replacement runs first), refuting the claim that
both forms of every listed token are replaced by the plain value. -/
theorem claim4_counterexample :
    createFileFromTemplate cfgC4 dvC4 (("\x7bdate\x7d X \x7b\x7bcreated\x7d\x7d").toList)
        (("- 14:30:00 hi\n").toList)
      = ("\x7bdate\x7d X \x7b2025-10-24 14:30:00\x7d- 14:30:00 hi\n").toList
    ∧ createFileFromTemplate cfgC4 dvC4 (("\x7bdate\x7d X \x7b\x7bcreated\x7d\x7d").toList)
        (("- 14:30:00 hi\n").toList)
      ≠ ("2025-10-24 X 2025-10-24 14:30:00- 14:30:00 hi\n").toList := by
  refine ⟨by decide, by decide⟩

/-- Claim C4 (amended): first-creation template substitution replaces the
doubled forms of `date`, `time`, `datetime` with their values while
leaving their bare forms verbatim; replaces the bare forms of `created`,
`today`, `yesterday`, `tomorrow`, `weekday`, `Weekday` with their values
(weekday the full name, Weekday the abbreviated name) while turning their
doubled forms into the value wrapped in one brace pair; and replaces both
forms of `section_header` and of the note placeholder. -/
theorem claim4_theorem :
    createFileFromTemplate cfgC4 dvC4 tmplC4 (("- 14:30:00 hi\n").toList)
      = ("\x7bdate\x7d;\x7btime\x7d;\x7bdatetime\x7d;2025-10-24;14:30:00;14:30:00;2025-10-24 14:30:00;\x7b2025-10-24 14:30:00\x7d;2025-10-24;\x7b2025-10-24\x7d;2025-10-23;\x7b2025-10-23\x7d;2025-10-25;\x7b2025-10-25\x7d;Friday;\x7bFriday\x7d;Fri;\x7bFri\x7d;Daily;Daily;- 14:30:00 hi\n").toList := by
  decide

/-- Claim C2: adding a note to a Table-format file that is already in the
target representation modifies the last previously written data row — the
cleanup pass drops the file's final newline and the appended entry is
glued onto the last row's line — contradicting the claimed byte-for-byte
stability of previously written rows. -/
theorem claim2_theorem :
    addNote cfgTableEn exDv (("Test2").toList) (("00:05:28").toList) none
        (FileSys.mk (some c2File) none)
      = Except.ok (FileSys.mk
          (some (("---\ndate: 2025-10-26\n---\n\n| Time | Content |\n|------|----------|\n| 00:04:43 | Test1 || 00:05:28 | Test2 |\n").toList))
          none)
    ∧ (rustLines c2File).getD 6 [] = ("| 00:04:43 | Test1 |").toList
    ∧ (rustLines (("---\ndate: 2025-10-26\n---\n\n| Time | Content |\n|------|----------|\n| 00:04:43 | Test1 || 00:05:28 | Test2 |\n").toList)).getD 6 []
      = ("| 00:04:43 | Test1 || 00:05:28 | Test2 |").toList := by
  refine ⟨by decide, by decide, by decide⟩

/-- Claim C8: every failing `add_note` execution is the missing-template
case: the note file did not exist (so no pre-existing file could be
affected), the configured template file was absent, the error is an
`Io` error whose message carries the template path, and the file system is
left untouched. -/
theorem claim8_theorem (cfg : VaultConfig) (dv : DateView) (content timeNow : Str)
    (cat : Option Str) (fs : FileSys) (e : JourneyError)
    (h : addNote cfg dv content timeNow cat fs = Except.error e) :
    fs.noteFile = none
    ∧ runAddNote cfg dv content timeNow cat fs = fs
    ∧ ∃ tf, cfg.templateFile = some tf ∧ fs.templateFile = none
        ∧ e = JourneyError.io
            ((("Failed to read template file '").toList) ++ tf ++ (("': file not found").toList))
        ∧ containsStr ((("Failed to read template file '").toList) ++ tf
            ++ (("': file not found").toList)) tf = true := by
  have hrun : runAddNote cfg dv content timeNow cat fs = fs := by
    unfold runAddNote
    rw [h]
  rcases fs with ⟨nf, tfl⟩
  cases nf with
  | some existing =>
    exfalso
    unfold addNote at h
    simp only [] at h
    split at h
    · split at h <;> exact Except.noConfusion h
    · exact Except.noConfusion h
  | none =>
    cases htf : cfg.templateFile with
    | some tf =>
      cases tfl with
      | some tc =>
        exfalso
        unfold addNote at h
        simp only [] at h
        rw [htf] at h
        exact Except.noConfusion h
      | none =>
        unfold addNote at h
        simp only [] at h
        rw [htf] at h
        have he : e = JourneyError.io ((("Failed to read template file '").toList) ++ tf
            ++ (("': file not found").toList)) := by
          injection h with h2
          exact h2.symm
        refine ⟨rfl, hrun, tf, rfl, rfl, he, ?_⟩
        exact containsStr_of_eq_append _ (("Failed to read template file '").toList) tf
          ((("': file not found").toList)) rfl
    | none =>
      exfalso
      unfold addNote at h
      simp only [] at h
      rw [htf] at h
      exact Except.noConfusion h

/-- Claim C8 witness: the theorem applied to the fixture vault whose
template file is configured but absent. -/
theorem claim8_witness :
    (FileSys.mk none none).noteFile = none
    ∧ runAddNote cfgC8 exDv (("x").toList) (("10:00:00").toList) none (FileSys.mk none none)
      = FileSys.mk none none
    ∧ ∃ tf, cfgC8.templateFile = some tf ∧ (FileSys.mk none none).templateFile = none
        ∧ JourneyError.io ((("Failed to read template file '").toList)
            ++ (("~/templates/daily.md").toList) ++ (("': file not found").toList))
          = JourneyError.io
            ((("Failed to read template file '").toList) ++ tf ++ (("': file not found").toList))
        ∧ containsStr ((("Failed to read template file '").toList) ++ tf
            ++ (("': file not found").toList)) tf = true :=
  claim8_theorem cfgC8 exDv (("x").toList) (("10:00:00").toList) none (FileSys.mk none none)
    (JourneyError.io ((("Failed to read template file '").toList)
      ++ (("~/templates/daily.md").toList) ++ (("': file not found").toList)))
    (by decide)

end Journey

namespace Journey

/-- Facts delivered by a successful `firstIdx` search: the index is in
range, the found element satisfies the predicate, earlier ones do not. -/
theorem firstIdx_some_facts (p : Str → Bool) (ls : List Str) (i : Nat)
    (h : firstIdx p ls = some i) :
    i < ls.length ∧ p (ls.getD i []) = true ∧ ∀ j, j < i → p (ls.getD j []) = false := by
  induction ls generalizing i with
  | nil => simp [firstIdx] at h
  | cons l t ih =>
    unfold firstIdx at h
    by_cases hp : p l
    · rw [if_pos hp] at h
      injection h with h2
      subst h2
      exact ⟨Nat.succ_pos _, hp, fun j hj => absurd hj (Nat.not_lt_zero j)⟩
    · rw [if_neg hp] at h
      cases hfi : firstIdx p t with
      | none => rw [hfi] at h; simp at h
      | some k =>
        rw [hfi] at h
        have h2 : k + 1 = i := by injection h
        subst h2
        obtain ⟨hk, hpk, hbefore⟩ := ih k hfi
        refine ⟨by simpa using Nat.succ_lt_succ hk, by simpa using hpk, ?_⟩
        intro j hj
        cases j with
        | zero => simpa using Bool.eq_false_iff.mpr hp
        | succ j2 => simpa using hbefore j2 (by omega)

/-- Facts delivered by a failed `firstIdx` search: no element in range
satisfies the predicate. -/
theorem firstIdx_none_facts (p : Str → Bool) (ls : List Str)
    (h : firstIdx p ls = none) : ∀ j, j < ls.length → p (ls.getD j []) = false := by
  induction ls with
  | nil => intro j hj; simp at hj
  | cons l t ih =>
    unfold firstIdx at h
    by_cases hp : p l
    · rw [if_pos hp] at h; simp at h
    · rw [if_neg hp] at h
      intro j hj
      cases j with
      | zero => simpa using Bool.eq_false_iff.mpr hp
      | succ j2 =>
        cases hfi : firstIdx p t with
        | some k => rw [hfi] at h; simp at h
        | none => simpa using ih hfi j2 (by simpa using Nat.lt_of_succ_lt_succ hj)

/-- Element access commutes with `drop`. -/
theorem getD_drop_eq (ls : List Str) (n k : Nat) :
    (ls.drop n).getD k [] = ls.getD (n + k) [] := by
  induction ls generalizing n with
  | nil => simp
  | cons l t ih =>
    cases n with
    | zero => simp
    | succ m =>
      show (t.drop m).getD k [] = (l :: t).getD (m + 1 + k) []
      rw [ih m]
      have h3 : m + 1 + k = (m + k) + 1 := by omega
      rw [h3]
      rfl

/-- Claim C6 counterexample: `| 10:00:00 | Note to self |` is a data row
inside the configured section — not a header or separator row — yet
`list_notes` drops it because its text contains the literal `Note`; the
claimed result therefore differs from the actual one. -/
theorem claim6_counterexample :
    listNotes cfgC6 (some c6File) none = [("| 11:00:00 | lunch |").toList]
    ∧ listNotesClaimed cfgC6 (some c6File) none
      = [("| 10:00:00 | Note to self |").toList, ("| 11:00:00 | lunch |").toList]
    ∧ listNotes cfgC6 (some c6File) none ≠ listNotesClaimed cfgC6 (some c6File) none := by
  refine ⟨by decide, by decide, by decide⟩

/-- Claim C6 (amended): an absent file yields an empty result; with no
section configured the whole file is filtered; an absent configured
section yields an empty result; and a found section yields exactly the
rows of the range from its heading to the next heading (or end of file)
that pass the data-row filter, which excludes header and separator rows
and, as a heuristic, any table-shaped row containing a configured header
label or the literal `Note`. -/
theorem claim6_theorem (cfg : VaultConfig) (content : Str) (cat : Option Str) :
    listNotes cfg none cat = []
    ∧ (getSectionHeader cfg cat = none →
        listNotes cfg (some content) cat = (rustLines content).filter (keepNoteLine cfg))
    ∧ (∀ sec, getSectionHeader cfg cat = some sec → findSection content sec = none →
        listNotes cfg (some content) cat = [])
    ∧ (∀ sec s, getSectionHeader cfg cat = some sec → findSection content sec = some s →
        sectionListingSpec cfg content cat sec s) := by
  refine ⟨rfl, ?_, ?_, ?_⟩
  · intro hsec
    simp only [listNotes, hsec]
  · intro sec hsec hfind
    simp only [listNotes, hsec, hfind]
  · intro sec s hsec hfind
    obtain ⟨hlt, hpred, -⟩ := firstIdx_some_facts _ _ _ hfind
    rw [Bool.and_eq_true] at hpred
    unfold sectionListingSpec
    cases hfi : firstIdx (fun l => ("#").toList.isPrefixOf (trimS l))
        ((rustLines content).drop (s + 1)) with
    | some k =>
      have he : findSectionEnd (rustLines content) s = s + 1 + k := by
        unfold findSectionEnd
        rw [hfi]
      obtain ⟨hk, hpk, hbef⟩ := firstIdx_some_facts _ _ _ hfi
      rw [List.length_drop] at hk
      rw [getD_drop_eq] at hpk
      refine ⟨?_, hlt, hpred.1, hpred.2, ?_, ?_⟩
      · simp only [listNotes, hsec, hfind]
      · intro j hj1 hj2
        rw [he] at hj2
        have hb := hbef (j - (s + 1)) (by omega)
        rw [getD_drop_eq] at hb
        have hjj : s + 1 + (j - (s + 1)) = j := by omega
        rw [hjj] at hb
        exact hb
      · rw [he]
        right
        exact ⟨by omega, hpk⟩
    | none =>
      have he : findSectionEnd (rustLines content) s = (rustLines content).length := by
        unfold findSectionEnd
        rw [hfi]
      have hbef := firstIdx_none_facts _ _ hfi
      refine ⟨?_, hlt, hpred.1, hpred.2, ?_, ?_⟩
      · simp only [listNotes, hsec, hfind]
      · intro j hj1 hj2
        rw [he] at hj2
        have hb := hbef (j - (s + 1)) (by rw [List.length_drop]; omega)
        rw [getD_drop_eq] at hb
        have hjj : s + 1 + (j - (s + 1)) = j := by omega
        rw [hjj] at hb
        exact hb
      · left
        exact he

/-- Claim C6 witness: the amended theorem's section-found case applied to
the fixture file, whose `Notes` heading is line 0. -/
theorem claim6_witness : sectionListingSpec cfgC6 c6File none (("Notes").toList) 0 :=
  (claim6_theorem cfgC6 c6File none).2.2.2 (("Notes").toList) 0 (by decide) (by decide)

end Journey

namespace Journey

/-- Unfolding equation of `List.isPrefixOf` on two cons cells. -/
theorem isPrefixOf_cons_cons (a b : Char) (as bs : Str) :
    (a :: as).isPrefixOf (b :: bs) = ((a == b) && as.isPrefixOf bs) := rfl

/-- Splitting never produces an empty part list. -/
theorem splitOnChar_ne_nil (sep : Char) (s : Str) : splitOnChar sep s ≠ [] := by
  cases s with
  | nil => simp [splitOnChar]
  | cons c t =>
    unfold splitOnChar
    by_cases h : c = sep
    · rw [if_pos h]; simp
    · rw [if_neg h]
      cases splitOnChar sep t <;> simp

/-- A separator-free string splits into itself. -/
theorem splitOnChar_no_sep (sep : Char) (s : Str) (h : ∀ c ∈ s, c ≠ sep) :
    splitOnChar sep s = [s] := by
  induction s with
  | nil => rfl
  | cons c t ih =>
    unfold splitOnChar
    rw [if_neg (h c (by simp))]
    rw [ih (fun x hx => h x (by simp [hx]))]

/-- Prepending a separator-free prefix extends the first part. -/
theorem splitOnChar_append_free (sep : Char) (a rest : Str) (hfree : ∀ c ∈ a, c ≠ sep)
    (h0 : Str) (t : List Str) (hrest : splitOnChar sep rest = h0 :: t) :
    splitOnChar sep (a ++ rest) = (a ++ h0) :: t := by
  induction a with
  | nil => simpa using hrest
  | cons c a2 ih =>
    show splitOnChar sep (c :: (a2 ++ rest)) = ((c :: a2) ++ h0) :: t
    unfold splitOnChar
    rw [if_neg (hfree c (by simp))]
    rw [ih (fun x hx => hfree x (by simp [hx]))]
    rfl

/-- Joining newline-free lines and resplitting recovers the lines. -/
theorem splitOnChar_joinLines (ls : List Str) (hne : ls ≠ [])
    (h : ∀ l ∈ ls, ∀ c ∈ l, c ≠ '\n') :
    splitOnChar '\n' (joinLines ls) = ls := by
  induction ls with
  | nil => exact absurd rfl hne
  | cons l t ih =>
    cases t with
    | nil =>
      show splitOnChar '\n' l = [l]
      exact splitOnChar_no_sep '\n' l (h l (by simp))
    | cons m r =>
      show splitOnChar '\n' (l ++ '\n' :: joinLines (m :: r)) = l :: m :: r
      have hrest : splitOnChar '\n' ('\n' :: joinLines (m :: r))
          = [] :: splitOnChar '\n' (joinLines (m :: r)) := rfl
      have hih : splitOnChar '\n' (joinLines (m :: r)) = m :: r :=
        ih (by simp) (fun x hx => h x (by simp at hx ⊢; tauto))
      rw [hih] at hrest
      have := splitOnChar_append_free '\n' l ('\n' :: joinLines (m :: r))
        (h l (by simp)) [] (m :: r) hrest
      simpa using this

/-- Rust `lines` of a `join` of newline-free lines: the lines come back,
except that one trailing empty line is absorbed. -/
theorem rustLines_joinLines (ls : List Str) (h : ∀ l ∈ ls, ∀ c ∈ l, c ≠ '\n') :
    rustLines (joinLines ls) = if ls.getLast? = some [] then ls.dropLast else ls := by
  cases hls : ls with
  | nil => simp [rustLines, joinLines, splitOnChar]
  | cons l t =>
    unfold rustLines
    rw [splitOnChar_joinLines (l :: t) (by simp) (hls ▸ h)]

/-- Rust `lines` of a `join` of nonempty newline-free lines is exactly the
line list. -/
theorem rustLines_joinLines_of_ne (ls : List Str) (h : ∀ l ∈ ls, ∀ c ∈ l, c ≠ '\n')
    (hne : ∀ l ∈ ls, l ≠ []) : rustLines (joinLines ls) = ls := by
  rw [rustLines_joinLines ls h]
  have hnl : ls.getLast? ≠ some [] := by
    intro hcon
    obtain ⟨hne2, hx⟩ := List.mem_getLast?_eq_getLast (Option.mem_def.mpr hcon)
    have hmem : ([] : Str) ∈ ls := by
      rw [hx]
      exact List.getLast_mem hne2
    exact hne [] hmem rfl
  rw [if_neg hnl]

/-- Dropping leading whitespace stops at a non-whitespace head. -/
theorem trimL_of_head (x : Str) (hne : x ≠ []) (hh : isWS (x.headD '.') = false) :
    trimL x = x := by
  cases x with
  | nil => exact absurd rfl hne
  | cons c t =>
    simp only [List.headD] at hh
    simp [trimL, List.dropWhile_cons, hh]

/-- Dropping trailing whitespace stops at a non-whitespace last char. -/
theorem trimR_of_last (x : Str) (hne : x ≠ []) (hl : isWS (x.getLastD '.') = false) :
    trimR x = x := by
  cases hx : x.reverse with
  | nil =>
    exact absurd (by simpa using congrArg List.reverse hx) hne
  | cons c y =>
    have hc : x.getLastD '.' = c := by
      rw [List.getLastD_eq_getLast?, ← List.head?_reverse, hx]
      rfl
    rw [hc] at hl
    unfold trimR
    rw [hx, List.dropWhile_cons, if_neg (by rw [hl]; simp)]
    rw [← hx, List.reverse_reverse]

/-- A string with non-whitespace first and last characters is its own
trim. -/
theorem trimS_of_ends (x : Str) (hne : x ≠ []) (hh : isWS (x.headD '.') = false)
    (hl : isWS (x.getLastD '.') = false) : trimS x = x := by
  unfold trimS
  rw [trimL_of_head x hne hh, trimR_of_last x hne hl]

/-- Last element of an appended list with nonempty right part. -/
theorem getLastD_append_right (a b : Str) (d : Char) (hb : b ≠ []) :
    (a ++ b).getLastD d = b.getLastD d := by
  rw [List.getLastD_eq_getLast?, List.getLastD_eq_getLast?, List.getLast?_append]
  cases hlb : b.getLast? with
  | none =>
    exfalso
    rw [List.getLast?_eq_none_iff] at hlb
    exact hb hlb
  | some v => rfl

/-- Trimming a single-space padding on both sides of a string with
non-whitespace ends recovers the string. -/
theorem trimS_pad (x : Str) (hne : x ≠ []) (hh : isWS (x.headD '.') = false)
    (hl : isWS (x.getLastD '.') = false) :
    trimS (' ' :: (x ++ [' '])) = x := by
  have hL : trimL (' ' :: (x ++ [' '])) = x ++ [' '] := by
    unfold trimL
    rw [List.dropWhile_cons, if_pos (by decide)]
    cases x with
    | nil => exact absurd rfl hne
    | cons c t =>
      simp only [List.headD] at hh
      show List.dropWhile isWS (c :: (t ++ [' '])) = c :: (t ++ [' '])
      rw [List.dropWhile_cons, if_neg (by rw [hh]; simp)]
  have hR : trimR (x ++ [' ']) = x := by
    unfold trimR
    rw [List.reverse_append]
    show ((' ' :: x.reverse).dropWhile isWS).reverse = x
    rw [List.dropWhile_cons, if_pos (by decide)]
    cases hx : x.reverse with
    | nil => exact absurd (by simpa using congrArg List.reverse hx) hne
    | cons c y =>
      have hc : x.getLastD '.' = c := by
        rw [List.getLastD_eq_getLast?, ← List.head?_reverse, hx]
        rfl
      rw [hc] at hl
      rw [List.dropWhile_cons, if_neg (by rw [hl]; simp)]
      rw [← hx, List.reverse_reverse]
  unfold trimS
  rw [hL, hR]

end Journey


namespace Journey

/-- Default head of a nonempty list is a member. -/
theorem headD_mem (x : Str) (d : Char) (hne : x ≠ []) : x.headD d ∈ x := by
  cases x with
  | nil => exact absurd rfl hne
  | cons c t => simp

/-- Default last of a nonempty list is a member. -/
theorem getLastD_mem (x : Str) (d : Char) (hne : x ≠ []) : x.getLastD d ∈ x := by
  rw [List.getLastD_eq_getLast?, List.getLast?_eq_getLast_of_ne_nil hne]
  exact List.getLast_mem hne

/-- A string of non-whitespace characters has non-whitespace ends. -/
theorem ends_of_all_not_ws (x : Str) (hne : x ≠ []) (h : ∀ c ∈ x, isWS c = false) :
    isWS (x.headD '.') = false ∧ isWS (x.getLastD '.') = false :=
  ⟨h _ (headD_mem x '.' hne), h _ (getLastD_mem x '.' hne)⟩

/-- A rendered bullet line is its own trim. -/
theorem trimS_mkBulletLine (p : Str × Str) (h2 : p.2 ≠ [])
    (hl : isWS (p.2.getLastD '.') = false) :
    trimS (mkBulletLine p) = mkBulletLine p := by
  refine trimS_of_ends _ (List.cons_ne_nil '-' _) rfl ?_
  show isWS (((("- ").toList ++ p.1 ++ [' ']) ++ p.2).getLastD '.') = false
  rw [getLastD_append_right _ _ _ h2]
  exact hl

/-- A rendered table row is its own trim. -/
theorem trimS_mkTableRow (p : Str × Str) : trimS (mkTableRow p) = mkTableRow p := by
  refine trimS_of_ends _ (List.cons_ne_nil '|' _) rfl ?_
  show isWS (((("| ").toList ++ p.1 ++ (" | ").toList ++ p.2) ++ (" |").toList).getLastD '.')
      = false
  rw [getLastD_append_right _ _ _ (show (" |").toList ≠ [] by decide)]
  rfl

/-- First space in a space-free prefix followed by a space. -/
theorem firstCharIdx_append (a b : Str) (h : ∀ c ∈ a, c ≠ ' ') :
    firstCharIdx ' ' (a ++ ' ' :: b) = some a.length := by
  induction a with
  | nil =>
    show firstCharIdx ' ' (' ' :: b) = some 0
    unfold firstCharIdx
    rw [if_pos rfl]
  | cons c a2 ih =>
    show firstCharIdx ' ' (c :: (a2 ++ ' ' :: b)) = some (a2.length + 1)
    unfold firstCharIdx
    rw [if_neg (h c (by simp))]
    rw [ih (fun x hx => h x (by simp [hx]))]
    rfl

/-- Parsing a rendered bullet line recovers the pair. -/
theorem parseBulletNote_mk (p : Str × Str) (h1 : p.1 ≠ [])
    (hT : ∀ c ∈ p.1, isWS c = false ∧ c ≠ '|') (h2 : p.2 ≠ [])
    (hh : isWS (p.2.headD '.') = false) (hl : isWS (p.2.getLastD '.') = false) :
    parseBulletNote (mkBulletLine p) = some p := by
  have hstart : findSub (mkBulletLine p) (("- ").toList) = some 0 := by
    show findSub ('-' :: ' ' :: ((p.1 ++ [' ']) ++ p.2)) (("- ").toList) = some 0
    rw [show ("- ").toList = ['-', ' '] from by decide]
    unfold findSub
    rw [if_pos (by simp [isPrefixOf_cons_cons])]
  have hdrop : (mkBulletLine p).drop (0 + 2) = p.1 ++ ' ' :: p.2 := by
    show (p.1 ++ [' ']) ++ p.2 = p.1 ++ ' ' :: p.2
    rw [List.append_assoc]
    rfl
  have hidx : firstCharIdx ' ' (p.1 ++ ' ' :: p.2) = some p.1.length :=
    firstCharIdx_append p.1 p.2 (fun c hc => by
      intro hcon
      have hw := (hT c hc).1
      rw [hcon] at hw
      exact absurd hw (by decide))
  unfold parseBulletNote
  rw [hstart]
  simp only []
  rw [hdrop, hidx]
  simp only []
  have htake : (p.1 ++ ' ' :: p.2).take p.1.length = p.1 := List.take_left p.1 (' ' :: p.2)
  have hdrop2 : (p.1 ++ ' ' :: p.2).drop (p.1.length + 1) = p.2 := by
    rw [← List.drop_drop]
    rw [List.drop_left p.1 (' ' :: p.2)]
    rfl
  have htrim : trimS p.2 = p.2 := trimS_of_ends p.2 h2 hh hl
  rw [htake, hdrop2, htrim]

/-- Splitting a rendered table row at pipes yields the four expected
parts. -/
theorem splitOnChar_mkTableRow (p : Str × Str) (hT1 : ∀ c ∈ p.1, c ≠ '|')
    (hT2 : ∀ c ∈ p.2, c ≠ '|') :
    splitOnChar '|' (mkTableRow p)
      = [[], ' ' :: (p.1 ++ [' ']), ' ' :: (p.2 ++ [' ']), []] := by
  have hfree1 : ∀ c ∈ (' ' :: p.1), c ≠ '|' := by
    intro c hc
    rcases List.mem_cons.mp hc with hc | hc
    · subst hc; decide
    · exact hT1 c hc
  have hfree2 : ∀ c ∈ (' ' :: p.2), c ≠ '|' := by
    intro c hc
    rcases List.mem_cons.mp hc with hc | hc
    · subst hc; decide
    · exact hT2 c hc
  have hform : mkTableRow p
      = '|' :: ((' ' :: p.1) ++ (' ' :: ('|' :: ((' ' :: p.2) ++ (' ' :: ('|' :: [])))))) := by
    show '|' :: ' ' :: (((p.1 ++ [' ', '|', ' ']) ++ p.2) ++ [' ', '|']) = _
    simp [List.append_assoc]
  have hs2 : splitOnChar '|' ((' ' :: p.2) ++ (' ' :: ('|' :: [])))
      = ((' ' :: p.2) ++ [' ']) :: [[]] :=
    splitOnChar_append_free '|' (' ' :: p.2) (' ' :: ('|' :: [])) hfree2 [' '] [[]] rfl
  have hs1 : splitOnChar '|'
        ((' ' :: p.1) ++ (' ' :: ('|' :: ((' ' :: p.2) ++ (' ' :: ('|' :: []))))))
      = ((' ' :: p.1) ++ [' ']) :: splitOnChar '|' ((' ' :: p.2) ++ (' ' :: ('|' :: []))) :=
    splitOnChar_append_free '|' (' ' :: p.1)
      (' ' :: ('|' :: ((' ' :: p.2) ++ (' ' :: ('|' :: []))))) hfree1 [' ']
      (splitOnChar '|' ((' ' :: p.2) ++ (' ' :: ('|' :: [])))) rfl
  rw [hform]
  show [] :: splitOnChar '|'
      ((' ' :: p.1) ++ (' ' :: ('|' :: ((' ' :: p.2) ++ (' ' :: ('|' :: [])))))) = _
  rw [hs1, hs2]
  rfl

/-- Parsing a rendered table row recovers the pair. -/
theorem parseTableNote_mk (p : Str × Str) (h1 : p.1 ≠ [])
    (hT : ∀ c ∈ p.1, isWS c = false ∧ c ≠ '|') (h2 : p.2 ≠ [])
    (hh : isWS (p.2.headD '.') = false) (hl : isWS (p.2.getLastD '.') = false)
    (hC : ∀ c ∈ p.2, c ≠ '\n' ∧ c ≠ '|') :
    parseTableNote (mkTableRow p) = some p := by
  have hsplit := splitOnChar_mkTableRow p (fun c hc => (hT c hc).2)
    (fun c hc => (hC c hc).2)
  have hends1 := ends_of_all_not_ws p.1 h1 (fun c hc => (hT c hc).1)
  unfold parseTableNote
  rw [hsplit]
  rw [if_pos (by simp)]
  show some (trimS (' ' :: (p.1 ++ [' '])), trimS (' ' :: (p.2 ++ [' ']))) = some p
  rw [trimS_pad p.1 h1 hends1.1 hends1.2, trimS_pad p.2 h2 hh hl]

end Journey

namespace Journey

/-- The bullet marker is a prefix of every rendered bullet line. -/
theorem dash_isPrefixOf_mkBulletLine (p : Str × Str) :
    ("- ").toList.isPrefixOf (mkBulletLine p) = true := by
  rw [show ("- ").toList = ['-', ' '] from by decide]
  show (['-', ' '] : Str).isPrefixOf ('-' :: ' ' :: ((p.1 ++ [' ']) ++ p.2)) = true
  simp [List.isPrefixOf]

/-- A rendered bullet line does not start with a pipe. -/
theorem pipe_not_isPrefixOf_mkBulletLine (p : Str × Str) :
    ("|").toList.isPrefixOf (mkBulletLine p) = false := by
  rw [show ("|").toList = ['|'] from by decide]
  show (['|'] : Str).isPrefixOf ('-' :: ' ' :: ((p.1 ++ [' ']) ++ p.2)) = false
  simp [List.isPrefixOf]

/-- Every rendered table row starts with a pipe. -/
theorem pipe_isPrefixOf_mkTableRow (p : Str × Str) :
    ("|").toList.isPrefixOf (mkTableRow p) = true := by
  rw [show ("|").toList = ['|'] from by decide]
  show (['|'] : Str).isPrefixOf
    ('|' :: ' ' :: (((p.1 ++ (" | ").toList) ++ p.2) ++ (" |").toList)) = true
  simp [List.isPrefixOf]

/-- No rendered table row is a separator row. -/
theorem sep_not_isPrefixOf_mkTableRow (p : Str × Str) :
    ("|---").toList.isPrefixOf (mkTableRow p) = false := by
  rw [show ("|---").toList = ['|', '-', '-', '-'] from by decide]
  show (['|', '-', '-', '-'] : Str).isPrefixOf
    ('|' :: ' ' :: (((p.1 ++ (" | ").toList) ++ p.2) ++ (" |").toList)) = false
  simp [List.isPrefixOf]

/-- No rendered table row starts with the bullet marker. -/
theorem dash_not_isPrefixOf_mkTableRow (p : Str × Str) :
    ("- ").toList.isPrefixOf (mkTableRow p) = false := by
  rw [show ("- ").toList = ['-', ' '] from by decide]
  show (['-', ' '] : Str).isPrefixOf
    ('|' :: ' ' :: (((p.1 ++ (" | ").toList) ++ p.2) ++ (" |").toList)) = false
  simp [List.isPrefixOf]

/-- Every rendered table row contains a pipe. -/
theorem containsStr_pipe_mkTableRow (p : Str × Str) :
    containsStr (mkTableRow p) (("|").toList) = true := by
  show containsStr ('|' :: ' ' :: (((p.1 ++ (" | ").toList) ++ p.2) ++ (" |").toList))
    (("|").toList) = true
  unfold containsStr
  rw [show ("|").toList = ['|'] from by decide]
  have hpre : (['|'] : Str).isPrefixOf
      ('|' :: ' ' :: (((p.1 ++ (" | ").toList) ++ p.2) ++ (" |").toList)) = true := by
    simp [List.isPrefixOf]
  rw [hpre]
  simp

/-- Characters of a rendered bullet line of a good entry are not
newlines. -/
theorem mkBulletLine_chars (q : Str × Str) (hq : GoodEntry q) :
    ∀ c ∈ mkBulletLine q, c ≠ '\n' := by
  obtain ⟨-, hT, h2, hh, hl, hC, hnT, hnC⟩ := hq
  intro c hc hcon
  subst hcon
  have hform : mkBulletLine q = '-' :: ' ' :: ((q.1 ++ [' ']) ++ q.2) := rfl
  rw [hform] at hc
  simp at hc
  rcases hc with hc | hc
  · exact absurd ((hT _ hc).1) (by decide)
  · exact (hC _ hc).1 rfl

/-- Characters of a rendered table row of a good entry are not
newlines. -/
theorem mkTableRow_chars (q : Str × Str) (hq : GoodEntry q) :
    ∀ c ∈ mkTableRow q, c ≠ '\n' := by
  obtain ⟨h1, hT, h2, hh, hl, hC, hnT, hnC⟩ := hq
  intro c hc hcon
  subst hcon
  have hform : mkTableRow q
      = '|' :: ' ' :: (((q.1 ++ [' ', '|', ' ']) ++ q.2) ++ [' ', '|']) := rfl
  rw [hform] at hc
  simp at hc
  rcases hc with hc | hc
  · exact absurd ((hT _ hc).1) (by decide)
  · exact (hC _ hc).1 rfl

/-- Characters of the synthesized header row are not newlines. -/
theorem hdrRow_chars (cfg : VaultConfig) (hc : GoodHeaderCfg cfg) :
    ∀ c ∈ hdrRow cfg, c ≠ '\n' := by
  obtain ⟨-, hth, htc⟩ := hc
  intro c hcm hcon
  subst hcon
  have hform : hdrRow cfg = '|' :: ' ' :: ((((getTableHeaders cfg).1 ++ [' ', '|', ' '])
      ++ (getTableHeaders cfg).2) ++ [' ', '|']) := rfl
  rw [hform] at hcm
  simp at hcm
  rcases hcm with hcm | hcm
  · exact hth _ hcm rfl
  · exact htc _ hcm rfl

/-- Shape classification of a rendered bullet line. -/
theorem isBulletLine_mkBulletLine (p : Str × Str) (hp : GoodEntry p) :
    isBulletLine (mkBulletLine p) = true := by
  unfold isBulletLine
  rw [trimS_mkBulletLine p hp.2.2.1 hp.2.2.2.2.1]
  exact dash_isPrefixOf_mkBulletLine p

/-- A rendered bullet line is not table-shaped. -/
theorem isTableishLine_mkBulletLine (p : Str × Str) (hp : GoodEntry p) :
    isTableishLine (mkBulletLine p) = false := by
  unfold isTableishLine
  simp only []
  rw [trimS_mkBulletLine p hp.2.2.1 hp.2.2.2.2.1]
  rw [pipe_not_isPrefixOf_mkBulletLine p]
  simp

/-- A rendered table row is not bullet-shaped. -/
theorem isBulletLine_mkTableRow (p : Str × Str) : isBulletLine (mkTableRow p) = false := by
  unfold isBulletLine
  rw [trimS_mkTableRow p]
  exact dash_not_isPrefixOf_mkTableRow p

/-- A rendered table row is table-shaped. -/
theorem isTableishLine_mkTableRow (p : Str × Str) : isTableishLine (mkTableRow p) = true := by
  unfold isTableishLine
  simp only []
  rw [trimS_mkTableRow p]
  rw [pipe_isPrefixOf_mkTableRow p, containsStr_pipe_mkTableRow p,
    sep_not_isPrefixOf_mkTableRow p]
  rfl

end Journey

namespace Journey

/-- The bullet body of good entries is detected as Bullet format. -/
theorem detect_bulletBody (es : List (Str × Str)) (hes : ∀ e ∈ es, GoodEntry e)
    (hne : es ≠ []) : detectNoteFormat (mkBulletBody es) = some NoteFormat.bullet := by
  have hlines : rustLines (mkBulletBody es) = es.map mkBulletLine := by
    refine rustLines_joinLines_of_ne _ ?_ ?_
    · intro l hl
      obtain ⟨e, he, hle⟩ := List.mem_map.mp hl
      subst hle
      exact mkBulletLine_chars e (hes e he)
    · intro l hl
      obtain ⟨e, he, hle⟩ := List.mem_map.mp hl
      subst hle
      exact List.cons_ne_nil '-' _
  have h1 : (es.map mkBulletLine).any isBulletLine = true := by
    cases es with
    | nil => exact absurd rfl hne
    | cons e t =>
      rw [List.map_cons, List.any_cons, isBulletLine_mkBulletLine e (hes e (by simp))]
      rfl
  have h2 : (es.map mkBulletLine).any isTableishLine = false := by
    rw [List.any_eq_false]
    intro l hl
    obtain ⟨e, he, hle⟩ := List.mem_map.mp hl
    subst hle
    simp [isTableishLine_mkBulletLine e (hes e he)]
  unfold detectNoteFormat
  simp only []
  rw [hlines, h1, h2]
  rfl

/-- The synthesized table body is detected as Table format. -/
theorem detect_tableBody (cfg : VaultConfig) (es : List (Str × Str))
    (hc : GoodHeaderCfg cfg) (hes : ∀ e ∈ es, GoodEntry e) :
    detectNoteFormat (joinLines (hdrRow cfg :: sepRow :: es.map mkTableRow))
      = some NoteFormat.table := by
  have hlines : rustLines (joinLines (hdrRow cfg :: sepRow :: es.map mkTableRow))
      = hdrRow cfg :: sepRow :: es.map mkTableRow := by
    refine rustLines_joinLines_of_ne _ ?_ ?_
    · intro l hl
      rcases List.mem_cons.mp hl with hl | hl
      · subst hl; exact hdrRow_chars cfg hc
      rcases List.mem_cons.mp hl with hl | hl
      · subst hl; decide
      · obtain ⟨e, he, hle⟩ := List.mem_map.mp hl
        subst hle
        exact mkTableRow_chars e (hes e he)
    · intro l hl
      rcases List.mem_cons.mp hl with hl | hl
      · subst hl; exact List.cons_ne_nil '|' _
      rcases List.mem_cons.mp hl with hl | hl
      · subst hl; decide
      · obtain ⟨e, he, hle⟩ := List.mem_map.mp hl
        subst hle
        exact List.cons_ne_nil '|' _
  have hhdr : hdrRow cfg = mkTableRow (getTableHeaders cfg) := rfl
  have hmap1 : (es.map mkTableRow).any isBulletLine = false := by
    rw [List.any_eq_false]
    intro l hl
    obtain ⟨e, he, hle⟩ := List.mem_map.mp hl
    subst hle
    simp [isBulletLine_mkTableRow e]
  have h1 : (hdrRow cfg :: sepRow :: es.map mkTableRow).any isBulletLine = false := by
    rw [List.any_cons, List.any_cons, hhdr, isBulletLine_mkTableRow, hmap1]
    rw [show isBulletLine sepRow = false from by decide]
    rfl
  have h2 : (hdrRow cfg :: sepRow :: es.map mkTableRow).any isTableishLine = true := by
    rw [List.any_cons, hhdr, isTableishLine_mkTableRow]
    rfl
  unfold detectNoteFormat
  simp only []
  rw [hlines, h1, h2]
  rfl

/-- Conversion step on a rendered bullet line: emit the header block when it
is the first note, then the corresponding table row. -/
theorem convertAux_table_cons (cfg : VaultConfig) (fnf : Bool) (e : Str × Str)
    (rest : List Str) (he : GoodEntry e) :
    convertAux cfg NoteFormat.table fnf (mkBulletLine e :: rest)
      = (if fnf = true then [] else [hdrRow cfg, sepRow]) ++ [mkTableRow e]
          ++ convertAux cfg NoteFormat.table true rest := by
  obtain ⟨h1, hT, h2, hh, hl, hC, hnT, hnC⟩ := he
  have htr : trimS (mkBulletLine e) = mkBulletLine e := trimS_mkBulletLine e h2 hl
  have hpb : parseBulletNote (mkBulletLine e) = some e := parseBulletNote_mk e h1 hT h2 hh hl
  conv_lhs => unfold convertAux
  conv_lhs => simp only []
  conv_lhs => rw [htr]
  conv_lhs => rw [if_pos ⟨trivial, dash_isPrefixOf_mkBulletLine e⟩]
  conv_lhs => rw [hpb]
  rfl

/-- Conversion maps every remaining rendered bullet line to its table row. -/
theorem convertAux_table_map (cfg : VaultConfig) (es : List (Str × Str))
    (hes : ∀ e ∈ es, GoodEntry e) :
    convertAux cfg NoteFormat.table true (es.map mkBulletLine) = es.map mkTableRow := by
  induction es with
  | nil => rfl
  | cons e t ih =>
    rw [List.map_cons, convertAux_table_cons cfg true e _ (hes e (by simp))]
    rw [ih (fun x hx => hes x (List.mem_cons_of_mem e hx))]
    simp

/-- The reverse conversion drops the synthesized header row. -/
theorem convertAux_skip_hdr (cfg : VaultConfig) (hc : GoodHeaderCfg cfg) (fnf : Bool)
    (rest : List Str) :
    convertAux cfg NoteFormat.bullet fnf (hdrRow cfg :: rest)
      = convertAux cfg NoteFormat.bullet fnf rest := by
  have hhdr : hdrRow cfg = mkTableRow (getTableHeaders cfg) := rfl
  conv_lhs => unfold convertAux
  conv_lhs => simp only []
  conv_lhs => rw [hhdr, trimS_mkTableRow]
  conv_lhs => rw [if_neg (fun h => NoteFormat.noConfusion h.1)]
  conv_lhs => rw [if_neg (fun h => NoteFormat.noConfusion h.1)]
  conv_lhs => rw [if_neg (fun h => hc.1.elim (fun ht => h.2.2.2.1 (hhdr ▸ ht))
    (fun hcnt => h.2.2.2.2 (hhdr ▸ hcnt)))]
  conv_lhs => rw [if_pos ⟨trivial, pipe_isPrefixOf_mkTableRow _,
    hc.1.elim (fun ht => Or.inl (hhdr ▸ ht)) (fun hcnt => Or.inr (Or.inl (hhdr ▸ hcnt)))⟩]

/-- The reverse conversion drops the synthesized separator row. -/
theorem convertAux_skip_sep (cfg : VaultConfig) (fnf : Bool) (rest : List Str) :
    convertAux cfg NoteFormat.bullet fnf (sepRow :: rest)
      = convertAux cfg NoteFormat.bullet fnf rest := by
  conv_lhs => unfold convertAux
  conv_lhs => simp only []
  conv_lhs => rw [show trimS sepRow = sepRow from by decide]
  conv_lhs => rw [if_neg (fun h => NoteFormat.noConfusion h.1)]
  conv_lhs => rw [if_neg (fun h => NoteFormat.noConfusion h.1)]
  conv_lhs => rw [if_neg (fun h => h.2.2.1 (by decide))]
  conv_lhs => rw [if_pos ⟨trivial, by decide, Or.inr (Or.inr (by decide))⟩]

/-- The reverse conversion turns a good rendered table row back into its
bullet line. -/
theorem convertAux_bullet_row (cfg : VaultConfig) (fnf : Bool) (e : Str × Str)
    (rest : List Str) (he : GoodEntry e) :
    convertAux cfg NoteFormat.bullet fnf (mkTableRow e :: rest)
      = mkBulletLine e :: convertAux cfg NoteFormat.bullet fnf rest := by
  have hpt : parseTableNote (mkTableRow e) = some e :=
    parseTableNote_mk e he.1 he.2.1 he.2.2.1 he.2.2.2.1 he.2.2.2.2.1 he.2.2.2.2.2.1
  conv_lhs => unfold convertAux
  conv_lhs => simp only []
  conv_lhs => rw [trimS_mkTableRow]
  conv_lhs => rw [if_neg (fun h => NoteFormat.noConfusion h.1)]
  conv_lhs => rw [if_neg (fun h => NoteFormat.noConfusion h.1)]
  conv_lhs => rw [if_pos ⟨trivial, pipe_isPrefixOf_mkTableRow e,
    fun hcon => by rw [sep_not_isPrefixOf_mkTableRow e] at hcon; exact Bool.noConfusion hcon,
    fun hcon => by rw [he.2.2.2.2.2.2.1] at hcon; exact Bool.noConfusion hcon,
    fun hcon => by rw [he.2.2.2.2.2.2.2] at hcon; exact Bool.noConfusion hcon⟩]
  conv_lhs => rw [hpt]
  rfl

/-- The reverse conversion maps all good rendered table rows back. -/
theorem convertAux_bullet_rows (cfg : VaultConfig) (fnf : Bool) (es : List (Str × Str))
    (hes : ∀ e ∈ es, GoodEntry e) :
    convertAux cfg NoteFormat.bullet fnf (es.map mkTableRow) = es.map mkBulletLine := by
  induction es with
  | nil => rfl
  | cons e t ih =>
    rw [List.map_cons, convertAux_bullet_row cfg fnf e _ (hes e (by simp))]
    rw [ih (fun x hx => hes x (List.mem_cons_of_mem e hx))]
    rfl

end Journey

namespace Journey

/-- Rust `lines` of a bullet body recovers the rendered bullet lines. -/
theorem rustLines_bulletBody (es : List (Str × Str)) (hes : ∀ e ∈ es, GoodEntry e) :
    rustLines (mkBulletBody es) = es.map mkBulletLine := by
  refine rustLines_joinLines_of_ne _ ?_ ?_
  · intro l hl
    obtain ⟨e, he, hle⟩ := List.mem_map.mp hl
    subst hle
    exact mkBulletLine_chars e (hes e he)
  · intro l hl
    obtain ⟨e, he, hle⟩ := List.mem_map.mp hl
    subst hle
    exact List.cons_ne_nil '-' _

/-- Rust `lines` of the synthesized table body recovers its lines. -/
theorem rustLines_tableBody (cfg : VaultConfig) (es : List (Str × Str))
    (hc : GoodHeaderCfg cfg) (hes : ∀ e ∈ es, GoodEntry e) :
    rustLines (joinLines (hdrRow cfg :: sepRow :: es.map mkTableRow))
      = hdrRow cfg :: sepRow :: es.map mkTableRow := by
  refine rustLines_joinLines_of_ne _ ?_ ?_
  · intro l hl
    rcases List.mem_cons.mp hl with hl | hl
    · subst hl; exact hdrRow_chars cfg hc
    rcases List.mem_cons.mp hl with hl | hl
    · subst hl; decide
    · obtain ⟨e, he, hle⟩ := List.mem_map.mp hl
      subst hle
      exact mkTableRow_chars e (hes e he)
  · intro l hl
    rcases List.mem_cons.mp hl with hl | hl
    · subst hl; exact List.cons_ne_nil '|' _
    rcases List.mem_cons.mp hl with hl | hl
    · subst hl; decide
    · obtain ⟨e, he, hle⟩ := List.mem_map.mp hl
      subst hle
      exact List.cons_ne_nil '|' _

/-- Bullet-to-table conversion of a nonempty good bullet body yields the
header row, the separator row, and one table row per entry. -/
theorem convert_toTable (cfg : VaultConfig) (e : Str × Str) (t : List (Str × Str))
    (hes : ∀ x ∈ e :: t, GoodEntry x) :
    convertNoteFormatIfNeeded cfg (mkBulletBody (e :: t)) NoteFormat.table
      = joinLines (hdrRow cfg :: sepRow :: (e :: t).map mkTableRow) := by
  have hdet := detect_bulletBody (e :: t) hes (by simp)
  have hlines := rustLines_bulletBody (e :: t) hes
  unfold convertNoteFormatIfNeeded
  simp only []
  rw [hdet]
  rw [if_neg (by simp)]
  rw [hlines, List.map_cons, convertAux_table_cons cfg false e _ (hes e (by simp))]
  rw [convertAux_table_map cfg t (fun x hx => hes x (List.mem_cons_of_mem e hx))]
  rfl

/-- Table-to-bullet conversion of the synthesized table body restores the
bullet body. -/
theorem convert_backToBullet (cfg : VaultConfig) (es : List (Str × Str))
    (hc : GoodHeaderCfg cfg) (hes : ∀ e ∈ es, GoodEntry e) :
    convertNoteFormatIfNeeded cfg (joinLines (hdrRow cfg :: sepRow :: es.map mkTableRow))
      NoteFormat.bullet = mkBulletBody es := by
  have hdet := detect_tableBody cfg es hc hes
  have hlines := rustLines_tableBody cfg es hc hes
  unfold convertNoteFormatIfNeeded
  simp only []
  rw [hdet]
  rw [if_neg (by simp)]
  rw [hlines, convertAux_skip_hdr cfg hc false _, convertAux_skip_sep cfg false _,
    convertAux_bullet_rows cfg false es hes]
  rfl

/-- Reading a good bullet body back yields exactly its entries. -/
theorem bulletPairs_body (es : List (Str × Str)) (hes : ∀ e ∈ es, GoodEntry e) :
    bulletPairs (mkBulletBody es) = es := by
  unfold bulletPairs
  rw [rustLines_bulletBody es hes]
  induction es with
  | nil => rfl
  | cons e t ih =>
    obtain ⟨h1, hT, h2, hh, hl, hC, -, -⟩ := hes e (by simp)
    have hp : parseBulletNote (trimS (mkBulletLine e)) = some e := by
      rw [trimS_mkBulletLine e h2 hl]
      exact parseBulletNote_mk e h1 hT h2 hh hl
    rw [List.map_cons, List.filterMap_cons]
    rw [hp]
    rw [ih (fun x hx => hes x (List.mem_cons_of_mem e hx))]

end Journey

namespace Journey

/-- C3 (counterexample): a single bullet entry whose content is
`Content review` parses to one `(time, content)` pair, yet converting the
body to Table representation and back to Bullet representation loses the
entry entirely — the rendered table row mentions the literal `Content`, so
the table-to-bullet pass deletes it as a presumed header row. -/
theorem claim3_counterexample :
    bulletPairs (("- 10:00:00 Content review").toList)
        = [((("10:00:00").toList), (("Content review").toList))]
      ∧ bulletPairs (roundTrip cfgTableEn (("- 10:00:00 Content review").toList)) = [] := by
  constructor <;> decide

/-- C3 (amended): for every number of entries (including zero) whose times
are nonempty runs of non-whitespace, non-pipe characters, whose contents
are nonempty, trimmed, and free of newlines and pipes, and whose rendered
table rows mention neither literal `Time` nor literal `Content`, and for
every configuration whose synthesized header row does mention `Time` or
`Content` and whose header labels are newline-free, converting the bullet
body to Table representation and back to Bullet representation preserves
the ordered sequence of `(time, content)` pairs exactly. -/
theorem claim3_theorem (cfg : VaultConfig) (es : List (Str × Str))
    (hc : GoodHeaderCfg cfg) (hes : ∀ e ∈ es, GoodEntry e) :
    bulletPairs (roundTrip cfg (mkBulletBody es)) = es
      ∧ bulletPairs (mkBulletBody es) = es := by
  have hpairs : bulletPairs (mkBulletBody es) = es := bulletPairs_body es hes
  refine ⟨?_, hpairs⟩
  cases es with
  | nil => rfl
  | cons e t =>
    unfold roundTrip
    rw [convert_toTable cfg e t hes, convert_backToBullet cfg (e :: t) hc hes]
    exact hpairs

/-- C3 witness: the sample entries and the English table configuration
satisfy the hypotheses, and the round trip preserves their pairs. -/
theorem claim3_witness :
    GoodHeaderCfg cfgTableEn ∧ (∀ e ∈ exEntries, GoodEntry e)
      ∧ bulletPairs (roundTrip cfgTableEn (mkBulletBody exEntries)) = exEntries
      ∧ bulletPairs (mkBulletBody exEntries) = exEntries := by
  have h1 : GoodHeaderCfg cfgTableEn := ⟨by decide, by decide, by decide⟩
  have h2 : ∀ e ∈ exEntries, GoodEntry e := by
    intro e he
    rcases List.mem_cons.mp he with he | he
    · subst he
      exact ⟨by decide, by decide, by decide, by decide, by decide, by decide, by decide,
        by decide⟩
    rcases List.mem_cons.mp he with he | he
    · subst he
      exact ⟨by decide, by decide, by decide, by decide, by decide, by decide, by decide,
        by decide⟩
    · exact absurd he (List.not_mem_nil e)
  exact ⟨h1, h2, (claim3_theorem cfgTableEn exEntries h1 h2).1,
    (claim3_theorem cfgTableEn exEntries h1 h2).2⟩

end Journey

namespace Journey

/-- Unfolding `cleanAux` on a data row. -/
theorem cleanAux_cons_data (b1 b2 : Bool) (l : Str) (rest : List Str)
    (hd : isCleanDataRow l = true) :
    cleanAux b1 b2 (l :: rest) = l :: cleanAux true true rest := by
  conv_lhs => unfold cleanAux
  rw [if_pos hd]

/-- Unfolding `cleanAux` on a header or separator row. -/
theorem cleanAux_cons_hdr (b1 b2 : Bool) (l : Str) (rest : List Str)
    (hd : isCleanDataRow l = false) (hh : isCleanHeaderSep l = true) :
    cleanAux b1 b2 (l :: rest) = l :: cleanAux true false rest := by
  conv_lhs => unfold cleanAux
  rw [if_neg (by simp [hd]), if_pos hh]

/-- Unfolding `cleanAux` on a blank line. -/
theorem cleanAux_cons_blank (b1 b2 : Bool) (l : Str) (rest : List Str)
    (hd : isCleanDataRow l = false) (hh : isCleanHeaderSep l = false)
    (hb : isBlankLine l = true) :
    cleanAux b1 b2 (l :: rest)
      = (if !b1 || !b2 then [l] else []) ++ cleanAux b1 false rest := by
  conv_lhs => unfold cleanAux
  rw [if_neg (by simp [hd]), if_neg (by simp [hh]), if_pos hb]

/-- Unfolding `cleanAux` on any other line. -/
theorem cleanAux_cons_other (b1 b2 : Bool) (l : Str) (rest : List Str)
    (hd : isCleanDataRow l = false) (hh : isCleanHeaderSep l = false)
    (hb : isBlankLine l = false) :
    cleanAux b1 b2 (l :: rest) = l :: cleanAux false false rest := by
  conv_lhs => unfold cleanAux
  rw [if_neg (by simp [hd]), if_neg (by simp [hh]), if_neg (by simp [hb])]

/-- Unfolding `preAux` on a data row. -/
theorem preAux_cons_data (s : Nat) (l : Str) (rest : List Str)
    (hd : isCleanDataRow l = true) :
    preAux s (l :: rest) = preAux 1 rest := by
  conv_lhs => unfold preAux
  rw [if_pos hd]

/-- Unfolding `preAux` on a blank line. -/
theorem preAux_cons_blank (s : Nat) (l : Str) (rest : List Str)
    (hd : isCleanDataRow l = false) (hb : isBlankLine l = true) :
    preAux s (l :: rest) = ((s != 2) && preAux (if s = 0 then 0 else 2) rest) := by
  conv_lhs => unfold preAux
  rw [if_neg (by simp [hd]), if_pos hb]

/-- Unfolding `preAux` on any other line. -/
theorem preAux_cons_other (s : Nat) (l : Str) (rest : List Str)
    (hd : isCleanDataRow l = false) (hb : isBlankLine l = false) :
    preAux s (l :: rest) = preAux 0 rest := by
  conv_lhs => unfold preAux
  rw [if_neg (by simp [hd]), if_neg (by simp [hb])]

/-- Unfolding `nbarAux` on a data row. -/
theorem nbarAux_cons_data (b : Bool) (l : Str) (rest : List Str)
    (hd : isCleanDataRow l = true) :
    nbarAux b (l :: rest) = nbarAux true rest := by
  conv_lhs => unfold nbarAux
  rw [if_pos hd]

/-- Unfolding `nbarAux` on a blank line. -/
theorem nbarAux_cons_blank (b : Bool) (l : Str) (rest : List Str)
    (hd : isCleanDataRow l = false) (hb : isBlankLine l = true) :
    nbarAux b (l :: rest) = (!b && nbarAux false rest) := by
  conv_lhs => unfold nbarAux
  rw [if_neg (by simp [hd]), if_pos hb]

/-- Unfolding `nbarAux` on any other line. -/
theorem nbarAux_cons_other (b : Bool) (l : Str) (rest : List Str)
    (hd : isCleanDataRow l = false) (hb : isBlankLine l = false) :
    nbarAux b (l :: rest) = nbarAux false rest := by
  conv_lhs => unfold nbarAux
  rw [if_neg (by simp [hd]), if_neg (by simp [hb])]

/-- A non-blank line advances `nbarAux` with its own data-row status. -/
theorem nbar_skip (b : Bool) (l : Str) (rest : List Str) (hb : isBlankLine l = false) :
    nbarAux b (l :: rest) = nbarAux (isCleanDataRow l) rest := by
  cases hd : isCleanDataRow l with
  | true => rw [nbarAux_cons_data b l rest hd]
  | false => rw [nbarAux_cons_other b l rest hd hb]

/-- Unfolding `gapAux` on a data row. -/
theorem gapAux_cons_data (s : Nat) (l : Str) (rest : List Str)
    (hd : isCleanDataRow l = true) :
    gapAux s (l :: rest) = ((s == 2) || gapAux 1 rest) := by
  conv_lhs => unfold gapAux
  rw [if_pos hd]

/-- Unfolding `gapAux` on a blank line. -/
theorem gapAux_cons_blank (s : Nat) (l : Str) (rest : List Str)
    (hd : isCleanDataRow l = false) (hb : isBlankLine l = true) :
    gapAux s (l :: rest) = gapAux (if s = 0 then 0 else 2) rest := by
  conv_lhs => unfold gapAux
  rw [if_neg (by simp [hd]), if_pos hb]

/-- Unfolding `gapAux` on any other line. -/
theorem gapAux_cons_other (s : Nat) (l : Str) (rest : List Str)
    (hd : isCleanDataRow l = false) (hb : isBlankLine l = false) :
    gapAux s (l :: rest) = gapAux 0 rest := by
  conv_lhs => unfold gapAux
  rw [if_neg (by simp [hd]), if_neg (by simp [hb])]

/-- A blank line is entirely whitespace. -/
theorem allWS_of_blank (x : Str) (hb : isBlankLine x = true) : ∀ c ∈ x, isWS c = true := by
  have htrim : trimS x = [] := by
    have := hb
    unfold isBlankLine at this
    cases hx : trimS x with
    | nil => rfl
    | cons c t => rw [hx] at this; exact absurd this (by simp [List.isEmpty])
  have h1 : ∀ c ∈ trimL x, isWS c = true := by
    have h2 : List.dropWhile isWS (trimL x).reverse = [] := by
      have := congrArg List.reverse htrim
      rw [show (trimS x).reverse = List.dropWhile isWS (trimL x).reverse from by
        unfold trimS trimR; rw [List.reverse_reverse]] at this
      simpa using this
    intro c hc
    exact List.dropWhile_eq_nil_iff.mp h2 c (List.mem_reverse.mpr hc)
  intro c hc
  have hx : List.takeWhile isWS x ++ List.dropWhile isWS x = x :=
    List.takeWhile_append_dropWhile isWS x
  rw [← hx] at hc
  rcases List.mem_append.mp hc with hc | hc
  · exact List.mem_takeWhile_imp hc
  · exact h1 c hc

/-- A line holding a non-whitespace character is not blank. -/
theorem isBlankLine_false_of_mem (x : Str) (c : Char) (hc : c ∈ x) (hw : isWS c = false) :
    isBlankLine x = false := by
  cases hb : isBlankLine x with
  | false => rfl
  | true => exact absurd (allWS_of_blank x hb c hc) (by simp [hw])

/-- Trailing-trim passes over a non-whitespace head. -/
theorem trimR_cons (c : Char) (x : Str) (hw : isWS c = false) :
    trimR (c :: x) = c :: trimR x := by
  unfold trimR
  rw [List.reverse_cons, List.dropWhile_append]
  cases hx : (List.dropWhile isWS x.reverse).isEmpty with
  | true =>
    rw [if_pos rfl]
    have hnil : List.dropWhile isWS x.reverse = [] := by
      cases h : List.dropWhile isWS x.reverse with
      | nil => rfl
      | cons a b => rw [h] at hx; exact absurd hx (by simp [List.isEmpty])
    rw [hnil]
    simp [List.dropWhile, hw]
  | false =>
    rw [if_neg (by simp)]
    simp

/-- A line whose first character is neither whitespace nor a pipe is
neither a data row nor blank. -/
theorem class_of_head (c : Char) (x : Str) (hw : isWS c = false) (hp : c ≠ '|') :
    isCleanDataRow (c :: x) = false ∧ isBlankLine (c :: x) = false := by
  have htl : trimL (c :: x) = c :: x := by
    unfold trimL
    simp [List.dropWhile, hw]
  have hts : trimS (c :: x) = c :: trimR x := by
    unfold trimS
    rw [htl, trimR_cons c x hw]
  constructor
  · unfold isCleanDataRow
    simp only [hts]
    rw [show ("|").toList = ['|'] from by decide]
    have : (['|'] : Str).isPrefixOf (c :: trimR x) = false := by
      simp [List.isPrefixOf]
      intro hcon
      exact hp hcon.symm
    rw [this]
    rfl
  · exact isBlankLine_false_of_mem _ c (by simp) hw

/-- A data row is not blank. -/
theorem dataRow_not_blank (l : Str) (hd : isCleanDataRow l = true) :
    isBlankLine l = false := by
  unfold isCleanDataRow at hd
  simp only [Bool.and_eq_true] at hd
  have hpre := hd.1.1.1
  cases ht : trimS l with
  | nil => rw [ht] at hpre; exact absurd hpre (by decide)
  | cons a b =>
    unfold isBlankLine
    rw [ht]
    rfl

/-- A header or separator row is not blank. -/
theorem headerSep_not_blank (l : Str) (hh : isCleanHeaderSep l = true) :
    isBlankLine l = false := by
  unfold isCleanHeaderSep at hh
  simp only [Bool.and_eq_true] at hh
  have hpre := hh.1
  cases ht : trimS l with
  | nil => rw [ht] at hpre; exact absurd hpre (by decide)
  | cons a b =>
    unfold isBlankLine
    rw [ht]
    rfl

/-- Default-irrelevance of `getLastD` on nonempty line lists. -/
theorem getLastD_ne_nil (t : List Str) (d d' : Str) (ht : t ≠ []) :
    t.getLastD d = t.getLastD d' := by
  cases t with
  | nil => exact absurd rfl ht
  | cons x xs => rw [List.getLastD_cons d x xs, List.getLastD_cons d' x xs]

/-- `getLastD` looks only at the right factor when it is nonempty. -/
theorem getLastD_append_right_L (a b : List Str) (hb : b ≠ []) :
    (a ++ b).getLastD [] = b.getLastD [] := by
  induction a with
  | nil => rfl
  | cons x xs ih =>
    have hne : xs ++ b ≠ [] := by
      intro hcon
      rcases List.append_eq_nil.mp hcon with ⟨-, h2⟩
      exact hb h2
    rw [List.cons_append, List.getLastD_cons [] x (xs ++ b)]
    rw [getLastD_ne_nil (xs ++ b) x [] hne]
    exact ih

/-- Pieces of a character split never hold the separator. -/
theorem splitOnChar_sep_free (sep : Char) (s : Str) :
    ∀ l ∈ splitOnChar sep s, ∀ c ∈ l, c ≠ sep := by
  induction s with
  | nil =>
    intro l hl c hc
    unfold splitOnChar at hl
    simp at hl
    subst hl
    exact absurd hc (List.not_mem_nil c)
  | cons a t ih =>
    intro l hl c hc
    unfold splitOnChar at hl
    by_cases ha : a = sep
    · rw [if_pos ha] at hl
      rcases List.mem_cons.mp hl with hl | hl
      · subst hl; exact absurd hc (List.not_mem_nil c)
      · exact ih l hl c hc
    · rw [if_neg ha] at hl
      cases hsp : splitOnChar sep t with
      | nil => exact absurd hsp (splitOnChar_ne_nil sep t)
      | cons h r =>
        rw [hsp] at hl
        rcases List.mem_cons.mp hl with hl | hl
        · subst hl
          rcases List.mem_cons.mp hc with hc | hc
          · subst hc; exact ha
          · exact ih h (by rw [hsp]; simp) c hc
        · exact ih l (by rw [hsp]; simp [hl]) c hc

/-- Lines of a file text are newline-free. -/
theorem rustLines_nl_free (s : Str) : ∀ l ∈ rustLines s, ∀ c ∈ l, c ≠ '\n' := by
  intro l hl
  unfold rustLines at hl
  simp only [] at hl
  refine splitOnChar_sep_free '\n' s l ?_
  by_cases hg : (splitOnChar '\n' s).getLast? = some []
  · rw [if_pos hg] at hl
    exact (List.dropLast_sublist (splitOnChar '\n' s)).subset hl
  · rw [if_neg hg] at hl
    exact hl

end Journey

namespace Journey

/-- Merging text onto the last line never empties the line list. -/
theorem mergeLast_ne_nil (ls : List Str) (x : Str) : mergeLast ls x ≠ [] := by
  cases ls with
  | nil => exact List.cons_ne_nil x []
  | cons l t =>
    unfold mergeLast
    intro hcon
    rcases List.append_eq_nil.mp hcon with ⟨-, h2⟩
    exact List.cons_ne_nil _ [] h2

/-- Merging onto the last line appends the text to the joined file. -/
theorem joinLines_mergeLast (ls : List Str) (x : Str) :
    joinLines (mergeLast ls x) = joinLines ls ++ x := by
  induction ls with
  | nil => rfl
  | cons l t ih =>
    cases t with
    | nil => rfl
    | cons m r =>
      have hm : mergeLast (l :: m :: r) x = l :: mergeLast (m :: r) x := by
        show (l :: m :: r).dropLast ++ [(l :: m :: r).getLastD [] ++ x]
          = l :: ((m :: r).dropLast ++ [(m :: r).getLastD [] ++ x])
        rw [List.getLastD_cons [] l (m :: r), getLastD_ne_nil (m :: r) l [] (by simp)]
        rfl
      rw [hm]
      obtain ⟨z, zs, hz⟩ := List.exists_cons_of_ne_nil (mergeLast_ne_nil (m :: r) x)
      rw [hz]
      show l ++ '\n' :: joinLines (z :: zs) = joinLines (l :: m :: r) ++ x
      rw [← hz, ih]
      show l ++ '\n' :: (joinLines (m :: r) ++ x) = (l ++ '\n' :: joinLines (m :: r)) ++ x
      rw [List.append_assoc]
      rfl

/-- Appending an empty final line appends a newline to the joined file. -/
theorem joinLines_snoc_nil (ls : List Str) (hne : ls ≠ []) :
    joinLines (ls ++ [[]]) = joinLines ls ++ ['\n'] := by
  induction ls with
  | nil => exact absurd rfl hne
  | cons l t ih =>
    cases t with
    | nil => rfl
    | cons m r =>
      show joinLines (l :: ((m :: r) ++ [[]])) = (l ++ '\n' :: joinLines (m :: r)) ++ ['\n']
      have hx : (m :: r) ++ [[]] = m :: (r ++ [[]]) := rfl
      rw [hx]
      show l ++ '\n' :: joinLines (m :: (r ++ [[]])) = (l ++ '\n' :: joinLines (m :: r)) ++ ['\n']
      rw [← hx, ih (by simp)]
      rw [List.append_assoc]
      rfl

/-- A joined line list followed by a final newline reads back as exactly
those lines. -/
theorem rustLines_joinLines_nl (L : List Str) (hne : L ≠ [])
    (h : ∀ l ∈ L, ∀ c ∈ l, c ≠ '\n') :
    rustLines (joinLines L ++ ['\n']) = L := by
  rw [← joinLines_snoc_nil L hne]
  rw [rustLines_joinLines (L ++ [[]]) (by
    intro l hl
    rcases List.mem_append.mp hl with hl | hl
    · exact h l hl
    · intro c hc
      rw [List.mem_singleton.mp hl] at hc
      exact absurd hc (List.not_mem_nil c))]
  rw [if_pos (List.getLast?_concat L)]
  exact List.dropLast_concat

/-- The Table rendering of `format_note_entry` is a table row plus a
newline. -/
theorem formatNoteEntry_table (t c : Str) :
    formatNoteEntry t c NoteFormat.table = mkTableRow (t, c) ++ ['\n'] := by
  show ("| ").toList ++ t ++ (" | ").toList ++ c ++ (" |\n").toList
      = ("| ").toList ++ t ++ (" | ").toList ++ c ++ (" |").toList ++ ['\n']
  rw [show (" |\n").toList = (" |").toList ++ ['\n'] from by decide]
  rw [← List.append_assoc]

/-- A table row over newline-free fields is newline-free. -/
theorem mkTableRow_nl_free (q : Str × Str) (h1 : ∀ c ∈ q.1, c ≠ '\n')
    (h2 : ∀ c ∈ q.2, c ≠ '\n') : ∀ c ∈ mkTableRow q, c ≠ '\n' := by
  intro c hc hcon
  subst hcon
  have hform : mkTableRow q
      = '|' :: ' ' :: (((q.1 ++ [' ', '|', ' ']) ++ q.2) ++ [' ', '|']) := rfl
  rw [hform] at hc
  simp at hc
  rcases hc with hc | hc
  · exact h1 _ hc rfl
  · exact h2 _ hc rfl

/-- Every table row ends with a pipe. -/
theorem mkTableRow_last (q : Str × Str) : (mkTableRow q).getLastD '.' = '|' := by
  show (('|' :: ' ' :: ((q.1 ++ [' ', '|', ' ']) ++ q.2)) ++ [' ', '|']).getLastD '.' = '|'
  rw [getLastD_append_right _ _ _ (by decide : ([' ', '|'] : Str) ≠ [])]
  rfl

/-- Every table row is a well-shaped last line. -/
theorem lastGood_mkTableRow (q : Str × Str) : lastGood (mkTableRow q) = true := by
  unfold lastGood
  have hp : ("| ").toList.isPrefixOf (mkTableRow q) = true := by
    rw [show ("| ").toList = ['|', ' '] from by decide]
    show (['|', ' '] : Str).isPrefixOf
      ('|' :: ' ' :: (((q.1 ++ [' ', '|', ' ']) ++ q.2) ++ [' ', '|'])) = true
    simp [List.isPrefixOf]
  rw [hp, mkTableRow_last q]
  rfl

/-- A well-shaped last line starts with pipe and blank. -/
theorem lastGood_shape (l : Str) (h : lastGood l = true) :
    ∃ rest, l = '|' :: ' ' :: rest := by
  unfold lastGood at h
  simp only [Bool.and_eq_true] at h
  have hp := h.1
  rw [show ("| ").toList = ['|', ' '] from by decide] at hp
  cases l with
  | nil => exact absurd hp (by decide)
  | cons a l1 =>
    cases l1 with
    | nil => exact absurd hp (by simp [List.isPrefixOf])
    | cons b l2 =>
      have hab : '|' = a ∧ ' ' = b := by
        simpa [List.isPrefixOf] using hp
      rw [← hab.1, ← hab.2]
      exact ⟨l2, rfl⟩

/-- A well-shaped last line ends with a pipe. -/
theorem lastGood_last (l : Str) (h : lastGood l = true) : l.getLastD '.' = '|' := by
  unfold lastGood at h
  simp only [Bool.and_eq_true] at h
  exact eq_of_beq h.2

/-- A well-shaped last line is not blank. -/
theorem lastGood_not_blank (l : Str) (h : lastGood l = true) : isBlankLine l = false := by
  obtain ⟨rest, hr⟩ := lastGood_shape l h
  subst hr
  exact isBlankLine_false_of_mem _ '|' (by simp) (by decide)

/-- A well-shaped last line is table-shaped. -/
theorem lastGood_tableish (l : Str) (h : lastGood l = true) : isTableishLine l = true := by
  obtain ⟨rest, hr⟩ := lastGood_shape l h
  have hlast := lastGood_last l h
  have htr : trimS l = l := by
    refine trimS_of_ends l (by rw [hr]; exact List.cons_ne_nil '|' _) ?_ ?_
    · rw [hr]; rfl
    · rw [hlast]; rfl
  unfold isTableishLine
  simp only []
  rw [htr, hr]
  have h1 : ("|").toList.isPrefixOf ('|' :: ' ' :: rest) = true := by
    rw [show ("|").toList = ['|'] from by decide]
    simp [List.isPrefixOf]
  have h2 : containsStr ('|' :: ' ' :: rest) (("|").toList) = true := by
    unfold containsStr
    rw [show ("|").toList = ['|'] from by decide]
    have : (['|'] : Str).isPrefixOf ('|' :: ' ' :: rest) = true := by
      simp [List.isPrefixOf]
    rw [this]
    simp
  have h3 : ("|---").toList.isPrefixOf ('|' :: ' ' :: rest) = false := by
    rw [show ("|---").toList = ['|', '-', '-', '-'] from by decide]
    simp [List.isPrefixOf]
  rw [h1, h2, h3]
  rfl

/-- Gluing a table row onto a well-shaped last line keeps it well shaped. -/
theorem lastGood_glue (l : Str) (q : Str × Str) (h : lastGood l = true) :
    lastGood (l ++ mkTableRow q) = true := by
  unfold lastGood
  have hp : ("| ").toList.isPrefixOf (l ++ mkTableRow q) = true := by
    have h1 : ("| ").toList.isPrefixOf l = true := by
      unfold lastGood at h
      simp only [Bool.and_eq_true] at h
      exact h.1
    exact List.isPrefixOf_iff_prefix.mpr
      ((List.isPrefixOf_iff_prefix.mp h1).trans (List.prefix_append l (mkTableRow q)))
  have hlast : (l ++ mkTableRow q).getLastD '.' = '|' := by
    rw [getLastD_append_right l (mkTableRow q) '.' (by
      show ('|' :: ' ' :: (((q.1 ++ [' ', '|', ' ']) ++ q.2) ++ [' ', '|'])) ≠ []
      exact List.cons_ne_nil '|' _)]
    exact mkTableRow_last q
  rw [hp, hlast]
  rfl

end Journey

namespace Journey

/-- The cleanup pass only ever emits lines of its input. -/
theorem clean_mem (ls : List Str) : ∀ b1 b2 x, x ∈ cleanAux b1 b2 ls → x ∈ ls := by
  induction ls with
  | nil =>
    intro b1 b2 x hx
    unfold cleanAux at hx
    exact absurd hx (List.not_mem_nil x)
  | cons l t ih =>
    intro b1 b2 x hx
    by_cases hd : isCleanDataRow l = true
    · rw [cleanAux_cons_data _ _ _ _ hd] at hx
      rcases List.mem_cons.mp hx with hx | hx
      · simp [hx]
      · exact List.mem_cons_of_mem l (ih _ _ _ hx)
    · have hd' : isCleanDataRow l = false := by simpa using hd
      by_cases hh : isCleanHeaderSep l = true
      · rw [cleanAux_cons_hdr _ _ _ _ hd' hh] at hx
        rcases List.mem_cons.mp hx with hx | hx
        · simp [hx]
        · exact List.mem_cons_of_mem l (ih _ _ _ hx)
      · have hh' : isCleanHeaderSep l = false := by simpa using hh
        by_cases hb : isBlankLine l = true
        · rw [cleanAux_cons_blank _ _ _ _ hd' hh' hb] at hx
          rcases List.mem_append.mp hx with hx | hx
          · by_cases hbb : (!b1 || !b2) = true
            · rw [if_pos hbb] at hx
              rw [List.mem_singleton.mp hx]
              simp
            · rw [if_neg hbb] at hx
              exact absurd hx (List.not_mem_nil x)
          · exact List.mem_cons_of_mem l (ih _ _ _ hx)
        · have hb' : isBlankLine l = false := by simpa using hb
          rw [cleanAux_cons_other _ _ _ _ hd' hh' hb'] at hx
          rcases List.mem_cons.mp hx with hx | hx
          · simp [hx]
          · exact List.mem_cons_of_mem l (ih _ _ _ hx)

/-- The cleanup pass keeps a non-blank last line last. -/
theorem clean_last (ls : List Str) : ∀ b1 b2, ls ≠ [] →
    isBlankLine (ls.getLastD []) = false →
    cleanAux b1 b2 ls ≠ [] ∧ (cleanAux b1 b2 ls).getLastD [] = ls.getLastD [] := by
  induction ls with
  | nil => intro b1 b2 h; exact absurd rfl h
  | cons l t ih =>
    intro b1 b2 hne hlast
    cases t with
    | nil =>
      have hll : (l :: ([] : List Str)).getLastD [] = l := rfl
      rw [hll] at hlast
      by_cases hd : isCleanDataRow l = true
      · rw [cleanAux_cons_data _ _ _ _ hd]
        exact ⟨by simp, rfl⟩
      · have hd' : isCleanDataRow l = false := by simpa using hd
        by_cases hh : isCleanHeaderSep l = true
        · rw [cleanAux_cons_hdr _ _ _ _ hd' hh]
          exact ⟨by simp, rfl⟩
        · have hh' : isCleanHeaderSep l = false := by simpa using hh
          by_cases hb : isBlankLine l = true
          · exact absurd hb (by simp [hlast])
          · have hb' : isBlankLine l = false := by simpa using hb
            rw [cleanAux_cons_other _ _ _ _ hd' hh' hb']
            exact ⟨by simp, rfl⟩
    | cons m r =>
      have hlast2 : (l :: m :: r).getLastD [] = (m :: r).getLastD [] := by
        rw [List.getLastD_cons [] l (m :: r)]
        exact getLastD_ne_nil (m :: r) l [] (by simp)
      rw [hlast2] at hlast
      by_cases hd : isCleanDataRow l = true
      · obtain ⟨hih1, hih2⟩ := ih true true (by simp) hlast
        rw [cleanAux_cons_data _ _ _ _ hd, hlast2]
        refine ⟨by simp, ?_⟩
        rw [List.getLastD_cons [] l _, getLastD_ne_nil _ l [] hih1]
        exact hih2
      · have hd' : isCleanDataRow l = false := by simpa using hd
        by_cases hh : isCleanHeaderSep l = true
        · obtain ⟨hih1, hih2⟩ := ih true false (by simp) hlast
          rw [cleanAux_cons_hdr _ _ _ _ hd' hh, hlast2]
          refine ⟨by simp, ?_⟩
          rw [List.getLastD_cons [] l _, getLastD_ne_nil _ l [] hih1]
          exact hih2
        · have hh' : isCleanHeaderSep l = false := by simpa using hh
          by_cases hb : isBlankLine l = true
          · obtain ⟨hih1, hih2⟩ := ih b1 false (by simp) hlast
            rw [cleanAux_cons_blank _ _ _ _ hd' hh' hb, hlast2]
            constructor
            · intro hcon
              exact hih1 (List.append_eq_nil.mp hcon).2
            · rw [getLastD_append_right_L _ _ hih1]
              exact hih2
          · have hb' : isBlankLine l = false := by simpa using hb
            obtain ⟨hih1, hih2⟩ := ih false false (by simp) hlast
            rw [cleanAux_cons_other _ _ _ _ hd' hh' hb', hlast2]
            refine ⟨by simp, ?_⟩
            rw [List.getLastD_cons [] l _, getLastD_ne_nil _ l [] hih1]
            exact hih2

/-- Core cleanup property: on an input whose data rows are followed by at
most one blank line, the cleanup pass leaves no blank line directly after
a data row. -/
theorem clean_nbar (ls : List Str) : ∀ (s : Nat) (inT lastRow prevRow : Bool),
    (s = 0 ∨ s = 1 ∨ s = 2) →
    (s = 1 ↔ lastRow = true) →
    (s = 1 → prevRow = true ∧ inT = true) →
    (s = 2 → inT = true ∧ prevRow = true) →
    (s = 0 → prevRow = false) →
    preAux s ls = true → nbarAux prevRow (cleanAux inT lastRow ls) = true := by
  induction ls with
  | nil =>
    intro s inT lastRow prevRow h012 hiff h1 h2 h0 hpre
    unfold cleanAux
    rfl
  | cons l t ih =>
    intro s inT lastRow prevRow h012 hiff h1 h2 h0 hpre
    by_cases hd : isCleanDataRow l = true
    · rw [preAux_cons_data _ _ _ hd] at hpre
      rw [cleanAux_cons_data _ _ _ _ hd]
      rw [nbar_skip _ _ _ (dataRow_not_blank l hd), hd]
      exact ih 1 true true true (by simp) (by simp) (fun _ => ⟨rfl, rfl⟩)
        (fun hcon => absurd hcon (by decide)) (fun hcon => absurd hcon (by decide)) hpre
    · have hd' : isCleanDataRow l = false := by simpa using hd
      by_cases hh : isCleanHeaderSep l = true
      · rw [preAux_cons_other _ _ _ hd' (headerSep_not_blank l hh)] at hpre
        rw [cleanAux_cons_hdr _ _ _ _ hd' hh]
        rw [nbar_skip _ _ _ (headerSep_not_blank l hh), hd']
        exact ih 0 true false false (by simp) (by simp) (fun hcon => absurd hcon (by decide))
          (fun hcon => absurd hcon (by decide)) (fun _ => rfl) hpre
      · have hh' : isCleanHeaderSep l = false := by simpa using hh
        by_cases hb : isBlankLine l = true
        · rw [preAux_cons_blank _ _ _ hd' hb] at hpre
          simp only [Bool.and_eq_true] at hpre
          have hs2 : s ≠ 2 := by
            intro hcon
            rw [hcon] at hpre
            exact absurd hpre.1 (by decide)
          rw [cleanAux_cons_blank _ _ _ _ hd' hh' hb]
          rcases h012 with hs | hs | hs
          · -- s = 0: the blank is kept; the previous line was no data row
            subst hs
            have hpr : prevRow = false := h0 rfl
            have hlr : lastRow = false := by
              cases hlr : lastRow with
              | false => rfl
              | true => exact absurd (hiff.mpr hlr) (by decide)
            subst hpr
            subst hlr
            rw [show (if !inT || !false then [l] else []) = [l] from by simp]
            show nbarAux false (l :: cleanAux inT false t) = true
            rw [nbarAux_cons_blank _ _ _ hd' hb]
            have hrec := ih 0 inT false false (by simp) (by simp)
              (fun hcon => absurd hcon (by decide)) (fun hcon => absurd hcon (by decide))
              (fun _ => rfl) (by simpa using hpre.2)
            simp [hrec]
          · -- s = 1: directly after a data row, the blank is deleted
            subst hs
            have hlr : lastRow = true := hiff.mp rfl
            obtain ⟨hpr, hiT⟩ := h1 rfl
            subst hlr
            subst hpr
            subst hiT
            rw [show (if !true || !true then [l] else []) = [] from by simp]
            show nbarAux true (cleanAux true false t) = true
            exact ih 2 true false true (by simp) (by simp)
              (fun hcon => absurd hcon (by decide)) (fun _ => ⟨rfl, rfl⟩)
              (fun hcon => absurd hcon (by decide)) (by simpa using hpre.2)
          · exact absurd hs hs2
        · have hb' : isBlankLine l = false := by simpa using hb
          rw [preAux_cons_other _ _ _ hd' hb'] at hpre
          rw [cleanAux_cons_other _ _ _ _ hd' hh' hb']
          rw [nbar_skip _ _ _ hb', hd']
          exact ih 0 false false false (by simp) (by simp)
            (fun hcon => absurd hcon (by decide)) (fun hcon => absurd hcon (by decide))
            (fun _ => rfl) hpre

/-- A file with no blank line after any data row satisfies the
pre-condition scanner. -/
theorem pre_of_nbar (ls : List Str) : ∀ (prevRow : Bool) (s : Nat),
    ((prevRow = true ∧ s = 1) ∨ (prevRow = false ∧ s = 0)) →
    nbarAux prevRow ls = true → preAux s ls = true := by
  induction ls with
  | nil =>
    intro prevRow s hps hn
    unfold preAux
    rfl
  | cons l t ih =>
    intro prevRow s hps hn
    by_cases hd : isCleanDataRow l = true
    · rw [nbarAux_cons_data _ _ _ hd] at hn
      rw [preAux_cons_data _ _ _ hd]
      exact ih true 1 (Or.inl ⟨rfl, rfl⟩) hn
    · have hd' : isCleanDataRow l = false := by simpa using hd
      by_cases hb : isBlankLine l = true
      · rw [nbarAux_cons_blank _ _ _ hd' hb] at hn
        simp only [Bool.and_eq_true] at hn
        have hpr : prevRow = false := by
          cases hpr : prevRow with
          | false => rfl
          | true => rw [hpr] at hn; exact absurd hn.1 (by decide)
        have hs : s = 0 := by
          rcases hps with ⟨h1, -⟩ | ⟨-, h2⟩
          · rw [hpr] at h1; exact absurd h1 (by decide)
          · exact h2
        subst hs
        rw [preAux_cons_blank _ _ _ hd' hb]
        have hrec := ih false 0 (Or.inr ⟨rfl, rfl⟩) hn.2
        simp [hrec]
      · have hb' : isBlankLine l = false := by simpa using hb
        rw [nbarAux_cons_other _ _ _ hd' hb'] at hn
        rw [preAux_cons_other _ _ _ hd' hb']
        exact ih false 0 (Or.inr ⟨rfl, rfl⟩) hn

/-- A file with no blank line after any data row has no blank line
strictly between two data rows. -/
theorem gap_of_nbar (ls : List Str) : ∀ (prevRow : Bool) (s : Nat),
    ((prevRow = true ∧ s = 1) ∨ (prevRow = false ∧ s = 0)) →
    nbarAux prevRow ls = true → gapAux s ls = false := by
  induction ls with
  | nil =>
    intro prevRow s hps hn
    unfold gapAux
    rfl
  | cons l t ih =>
    intro prevRow s hps hn
    have hs01 : s = 0 ∨ s = 1 := by
      rcases hps with ⟨-, h⟩ | ⟨-, h⟩
      · exact Or.inr h
      · exact Or.inl h
    by_cases hd : isCleanDataRow l = true
    · rw [nbarAux_cons_data _ _ _ hd] at hn
      rw [gapAux_cons_data _ _ _ hd]
      have hs2 : (s == 2) = false := by
        rcases hs01 with h | h <;> subst h <;> decide
      rw [hs2]
      have hrec := ih true 1 (Or.inl ⟨rfl, rfl⟩) hn
      simp [hrec]
    · have hd' : isCleanDataRow l = false := by simpa using hd
      by_cases hb : isBlankLine l = true
      · rw [nbarAux_cons_blank _ _ _ hd' hb] at hn
        simp only [Bool.and_eq_true] at hn
        have hpr : prevRow = false := by
          cases hpr : prevRow with
          | false => rfl
          | true => rw [hpr] at hn; exact absurd hn.1 (by decide)
        have hs : s = 0 := by
          rcases hps with ⟨h1, -⟩ | ⟨-, h2⟩
          · rw [hpr] at h1; exact absurd h1 (by decide)
          · exact h2
        subst hs
        rw [gapAux_cons_blank _ _ _ hd' hb]
        rw [show (if (0 : Nat) = 0 then (0 : Nat) else 2) = 0 from by simp]
        exact ih false 0 (Or.inr ⟨rfl, rfl⟩) hn.2
      · have hb' : isBlankLine l = false := by simpa using hb
        rw [nbarAux_cons_other _ _ _ hd' hb'] at hn
        rw [gapAux_cons_other _ _ _ hd' hb']
        exact ih false 0 (Or.inr ⟨rfl, rfl⟩) hn

/-- Replacing the last line by a non-blank line preserves the no-blank-
after-row property. -/
theorem nbar_replace_last (ls : List Str) : ∀ (b : Bool) (x : Str),
    nbarAux b ls = true → isBlankLine x = false →
    nbarAux b (ls.dropLast ++ [x]) = true := by
  induction ls with
  | nil =>
    intro b x hn hx
    show nbarAux b [x] = true
    rw [nbar_skip b x [] hx]
    rfl
  | cons l t ih =>
    intro b x hn hx
    cases t with
    | nil =>
      show nbarAux b [x] = true
      rw [nbar_skip b x [] hx]
      rfl
    | cons m r =>
      have hdl : ((l :: m :: r).dropLast ++ [x]) = l :: ((m :: r).dropLast ++ [x]) := rfl
      rw [hdl]
      by_cases hd : isCleanDataRow l = true
      · rw [nbarAux_cons_data _ _ _ hd] at hn ⊢
        exact ih true x hn hx
      · have hd' : isCleanDataRow l = false := by simpa using hd
        by_cases hb : isBlankLine l = true
        · rw [nbarAux_cons_blank _ _ _ hd' hb] at hn ⊢
          simp only [Bool.and_eq_true] at hn ⊢
          exact ⟨hn.1, ih false x hn.2 hx⟩
        · have hb' : isBlankLine l = false := by simpa using hb
          rw [nbarAux_cons_other _ _ _ hd' hb'] at hn ⊢
          exact ih false x hn hx

end Journey

namespace Journey

/-- `nbarAux` accepts the empty line list in any state. -/
theorem nbarAux_nil (b : Bool) : nbarAux b [] = true := by
  cases b <;> rfl

/-- The default of `getLastD` is irrelevant on a nonempty line list. -/
theorem getLastD_mem_L (ls : List Str) (h : ls ≠ []) : ls.getLastD [] ∈ ls := by
  induction ls with
  | nil => exact absurd rfl h
  | cons l t ih =>
    cases ht : t with
    | nil => simp
    | cons m r =>
      subst ht
      rw [List.getLastD_cons [] l (m :: r), getLastD_ne_nil (m :: r) l [] (by simp)]
      exact List.mem_cons_of_mem l (ih (by simp))

/-- A file whose last line is table-row shaped contains a table-shaped
line. -/
theorem any_tableish_of_lastGood (existing : Str) (hne : rustLines existing ≠ [])
    (hlast : lastGood ((rustLines existing).getLastD []) = true) :
    (rustLines existing).any isTableishLine = true :=
  List.any_eq_true.mpr ⟨(rustLines existing).getLastD [], getLastD_mem_L _ hne,
    lastGood_tableish _ hlast⟩

/-- When the file already holds a table-shaped line, converting toward
Table representation is exactly the blank-line cleanup pass. -/
theorem convert_to_clean (cfg : VaultConfig) (existing : Str)
    (hT : (rustLines existing).any isTableishLine = true) :
    convertNoteFormatIfNeeded cfg existing NoteFormat.table
      = cleanTableBlankLines existing := by
  have hdet : detectNoteFormat existing = none
      ∨ detectNoteFormat existing = some NoteFormat.table := by
    unfold detectNoteFormat
    simp only []
    rw [hT]
    cases hB : (rustLines existing).any isBulletLine with
    | true => exact Or.inl rfl
    | false => exact Or.inr rfl
  unfold convertNoteFormatIfNeeded
  simp only []
  rw [if_pos hdet]
  rw [if_pos trivial]

/-- Shape of `add_note` on an existing file with no section scoping. -/
theorem addNote_existing (cfg : VaultConfig) (dv : DateView) (content timeNow : Str)
    (cat : Option Str) (tfl : Option Str) (existing : Str)
    (hsec : getSectionHeader cfg cat = none) :
    addNote cfg dv content timeNow cat (FileSys.mk (some existing) tfl)
      = Except.ok (FileSys.mk (some (convertNoteFormatIfNeeded cfg existing
          (cfg.listType.getD NoteFormat.bullet)
          ++ formatNoteEntry timeNow (expandPhrases cfg content)
              (cfg.listType.getD NoteFormat.bullet))) tfl) := by
  unfold addNote
  simp only []
  rw [hsec]

/-- One `add_note` call on an existing well-formed Table file: the call
succeeds and the written file again satisfies the table invariant. -/
theorem step_existing (cfg : VaultConfig) (dv : DateView) (content timeNow : Str)
    (cat : Option Str) (tfl : Option Str) (existing : Str)
    (hfmt : cfg.listType = some NoteFormat.table)
    (hsec : getSectionHeader cfg cat = none)
    (htn : ∀ c ∈ timeNow, c ≠ '\n')
    (hex : ∀ c ∈ expandPhrases cfg content, c ≠ '\n')
    (hpre : preAux 0 (rustLines existing) = true)
    (hne : rustLines existing ≠ [])
    (hlast : lastGood ((rustLines existing).getLastD []) = true) :
    ∃ content', addNote cfg dv content timeNow cat (FileSys.mk (some existing) tfl)
        = Except.ok (FileSys.mk (some content') tfl) ∧ tableInv content' := by
  have hq : (timeNow, expandPhrases cfg content).1 = timeNow := rfl
  have hrow_nl : ∀ c ∈ mkTableRow (timeNow, expandPhrases cfg content), c ≠ '\n' :=
    mkTableRow_nl_free _ htn hex
  have hrow_lastGood : lastGood (mkTableRow (timeNow, expandPhrases cfg content)) = true :=
    lastGood_mkTableRow _
  have hrow_nonblank : isBlankLine (mkTableRow (timeNow, expandPhrases cfg content)) = false :=
    lastGood_not_blank _ hrow_lastGood
  have hlast_nonblank : isBlankLine ((rustLines existing).getLastD []) = false :=
    lastGood_not_blank _ hlast
  have heq := addNote_existing cfg dv content timeNow cat tfl existing hsec
  rw [hfmt] at heq
  simp only [Option.getD_some] at heq
  rw [convert_to_clean cfg existing (any_tableish_of_lastGood existing hne hlast)] at heq
  rw [formatNoteEntry_table timeNow (expandPhrases cfg content)] at heq
  set row := mkTableRow (timeNow, expandPhrases cfg content) with hrow
  set kept := cleanAux false false (rustLines existing) with hkept
  obtain ⟨hkne, hklast⟩ := clean_last (rustLines existing) false false hne hlast_nonblank
  have hnbar_kept : nbarAux false kept = true := by
    refine clean_nbar (rustLines existing) 0 false false false (Or.inl rfl)
      ⟨fun hcon => absurd hcon (by decide), fun hcon => absurd hcon (by decide)⟩
      (fun hcon => absurd hcon (by decide)) (fun hcon => absurd hcon (by decide))
      (fun _ => rfl) hpre
  have hcontent : cleanTableBlankLines existing ++ (row ++ ['\n'])
      = joinLines (mergeLast kept row) ++ ['\n'] := by
    show joinLines kept ++ (row ++ ['\n']) = joinLines (mergeLast kept row) ++ ['\n']
    rw [joinLines_mergeLast kept row, List.append_assoc]
  have hmem_nl : ∀ l ∈ mergeLast kept row, ∀ c ∈ l, c ≠ '\n' := by
    intro l hl
    have hkept_nl : ∀ x ∈ kept, ∀ c ∈ x, c ≠ '\n' := by
      intro x hx
      exact rustLines_nl_free existing x (clean_mem (rustLines existing) false false x hx)
    cases hk : kept with
    | nil =>
      rw [hk] at hl
      unfold mergeLast at hl
      rw [List.mem_singleton.mp hl]
      exact hrow_nl
    | cons k ks =>
      rw [hk] at hl
      unfold mergeLast at hl
      rcases List.mem_append.mp hl with hl | hl
      · exact hkept_nl l (by rw [hk]; exact (List.dropLast_sublist _).subset hl)
      · rw [List.mem_singleton.mp hl]
        intro c hc
        rcases List.mem_append.mp hc with hc | hc
        · refine hkept_nl _ ?_ c hc
          rw [hk]
          exact getLastD_mem_L (k :: ks) (by simp)
        · exact hrow_nl c hc
  have hlines : rustLines (cleanTableBlankLines existing ++ (row ++ ['\n']))
      = mergeLast kept row := by
    rw [hcontent]
    exact rustLines_joinLines_nl _ (mergeLast_ne_nil kept row) hmem_nl
  refine ⟨cleanTableBlankLines existing ++ (row ++ ['\n']), heq, ?_, ?_, ?_⟩
  · rw [hlines]
    cases hk : kept with
    | nil =>
      show nbarAux false [row] = true
      rw [nbar_skip _ _ _ hrow_nonblank]
      exact nbarAux_nil _
    | cons k ks =>
      show nbarAux false ((k :: ks).dropLast ++ [(k :: ks).getLastD [] ++ row]) = true
      refine nbar_replace_last (k :: ks) false _ (by rw [← hk]; exact hnbar_kept) ?_
      refine isBlankLine_false_of_mem _ '|' ?_ (by decide)
      refine List.mem_append.mpr (Or.inr ?_)
      show '|' ∈ '|' :: ' ' :: _
      simp
  · rw [hlines]
    exact mergeLast_ne_nil kept row
  · rw [hlines]
    cases hk : kept with
    | nil =>
      show lastGood (([row] : List Str).getLastD []) = true
      exact hrow_lastGood
    | cons k ks =>
      show lastGood (((k :: ks).dropLast ++ [(k :: ks).getLastD [] ++ row]).getLastD []) = true
      rw [getLastD_append_right_L _ _ (by simp)]
      show lastGood ((k :: ks).getLastD [] ++ row) = true
      have hkl : (k :: ks).getLastD [] = (rustLines existing).getLastD [] := by
        rw [← hk]
        exact hklast
      rw [hkl]
      exact lastGood_glue _ _ hlast

end Journey

namespace Journey

/-- Appending a final line appends a newline plus that line to the joined
file. -/
theorem joinLines_snoc (ls : List Str) (x : Str) (hne : ls ≠ []) :
    joinLines (ls ++ [x]) = joinLines ls ++ '\n' :: x := by
  induction ls with
  | nil => exact absurd rfl hne
  | cons l t ih =>
    cases t with
    | nil => rfl
    | cons m r =>
      show joinLines (l :: ((m :: r) ++ [x])) = (l ++ '\n' :: joinLines (m :: r)) ++ '\n' :: x
      have hx : (m :: r) ++ [x] = m :: (r ++ [x]) := rfl
      rw [hx]
      show l ++ '\n' :: joinLines (m :: (r ++ [x])) = (l ++ '\n' :: joinLines (m :: r)) ++ '\n' :: x
      rw [← hx, ih (by simp)]
      rw [List.append_assoc]
      rfl

/-- Shape of `add_note` when the note file is absent and no template is
configured. -/
theorem addNote_absent (cfg : VaultConfig) (dv : DateView) (content timeNow : Str)
    (cat : Option Str) (tfl : Option Str)
    (htpl : cfg.templateFile = none) :
    addNote cfg dv content timeNow cat (FileSys.mk none tfl)
      = Except.ok (FileSys.mk (some (createDefaultFileContent cfg dv cat
          (formatNoteEntry timeNow (expandPhrases cfg content)
            (cfg.listType.getD NoteFormat.bullet)))) tfl) := by
  unfold addNote
  simp only []
  rw [htpl]

/-- The default file body, with Table format and no section scoping, is a
joined six-line preamble plus the entry. -/
theorem createDefault_eq (cfg : VaultConfig) (dv : DateView) (cat : Option Str)
    (entry : Str) (hsec : getSectionHeader cfg cat = none)
    (hfmt : cfg.listType = some NoteFormat.table) :
    createDefaultFileContent cfg dv cat entry
      = joinLines [("---").toList, ("date: ").toList ++ dv.date, ("---").toList, [],
          hdrRow cfg, sepRow] ++ ['\n'] ++ entry := by
  unfold createDefaultFileContent
  simp only []
  rw [hsec, hfmt]
  simp only [Option.getD_some]
  rw [if_pos trivial]
  show ((("---\ndate: ").toList ++ dv.date ++ ("\n---\n\n").toList)
      ++ ("| ").toList ++ (getTableHeaders cfg).1 ++ (" | ").toList
      ++ (getTableHeaders cfg).2 ++ (" |\n").toList ++ ("|------|----------|\n").toList)
      ++ entry
    = joinLines [("---").toList, ("date: ").toList ++ dv.date, ("---").toList, [],
        hdrRow cfg, sepRow] ++ ['\n'] ++ entry
  rw [show ("---\ndate: ").toList = ['-', '-', '-', '\n', 'd', 'a', 't', 'e', ':', ' ']
    from by decide]
  rw [show ("\n---\n\n").toList = ['\n', '-', '-', '-', '\n', '\n'] from by decide]
  rw [show ("| ").toList = ['|', ' '] from by decide]
  rw [show (" | ").toList = [' ', '|', ' '] from by decide]
  rw [show (" |\n").toList = [' ', '|', '\n'] from by decide]
  rw [show ("|------|----------|\n").toList
    = ['|', '-', '-', '-', '-', '-', '-', '|', '-', '-', '-', '-', '-', '-', '-', '-', '-',
       '-', '|', '\n'] from by decide]
  show _ = (("---").toList ++ '\n'
      :: ((("date: ").toList ++ dv.date) ++ '\n'
        :: (("---").toList ++ '\n'
          :: (([] : Str) ++ '\n'
            :: (hdrRow cfg ++ '\n' :: sepRow))))) ++ ['\n'] ++ entry
  rw [show ("---").toList = ['-', '-', '-'] from by decide]
  rw [show ("date: ").toList = ['d', 'a', 't', 'e', ':', ' '] from by decide]
  rw [show hdrRow cfg = ['|', ' '] ++ (getTableHeaders cfg).1 ++ [' ', '|', ' ']
      ++ (getTableHeaders cfg).2 ++ [' ', '|'] from rfl]
  rw [show sepRow = ['|', '-', '-', '-', '-', '-', '-', '|', '-', '-', '-', '-', '-', '-',
      '-', '-', '-', '-', '|'] from by decide]
  simp [List.append_assoc]

/-- One `add_note` call on an absent file with Table format, no template,
and no section scoping: the call creates a file satisfying the table
invariant. -/
theorem step_absent (cfg : VaultConfig) (dv : DateView) (content timeNow : Str)
    (cat : Option Str) (tfl : Option Str)
    (hfmt : cfg.listType = some NoteFormat.table)
    (htpl : cfg.templateFile = none)
    (hsec : getSectionHeader cfg cat = none)
    (hdate : ∀ c ∈ dv.date, c ≠ '\n')
    (hth : ∀ c ∈ (getTableHeaders cfg).1, c ≠ '\n')
    (htc : ∀ c ∈ (getTableHeaders cfg).2, c ≠ '\n')
    (htn : ∀ c ∈ timeNow, c ≠ '\n')
    (hex : ∀ c ∈ expandPhrases cfg content, c ≠ '\n') :
    ∃ content', addNote cfg dv content timeNow cat (FileSys.mk none tfl)
        = Except.ok (FileSys.mk (some content') tfl) ∧ tableInv content' := by
  have hrow_nl : ∀ c ∈ mkTableRow (timeNow, expandPhrases cfg content), c ≠ '\n' :=
    mkTableRow_nl_free _ htn hex
  have hrow_lastGood : lastGood (mkTableRow (timeNow, expandPhrases cfg content)) = true :=
    lastGood_mkTableRow _
  have hrow_nonblank : isBlankLine (mkTableRow (timeNow, expandPhrases cfg content)) = false :=
    lastGood_not_blank _ hrow_lastGood
  have heq := addNote_absent cfg dv content timeNow cat tfl htpl
  rw [hfmt] at heq
  simp only [Option.getD_some] at heq
  rw [formatNoteEntry_table timeNow (expandPhrases cfg content)] at heq
  rw [createDefault_eq cfg dv cat _ hsec hfmt] at heq
  set row := mkTableRow (timeNow, expandPhrases cfg content) with hrowdef
  set P := [("---").toList, ("date: ").toList ++ dv.date, ("---").toList, [],
    hdrRow cfg, sepRow] with hP
  have hjoin : joinLines P ++ ['\n'] ++ (row ++ ['\n'])
      = joinLines (P ++ [row]) ++ ['\n'] := by
    rw [joinLines_snoc P row (by rw [hP]; simp)]
    simp [List.append_assoc]
  rw [hjoin] at heq
  have hhdr_eq : hdrRow cfg = mkTableRow (getTableHeaders cfg) := rfl
  have hmem_nl : ∀ l ∈ P ++ [row], ∀ c ∈ l, c ≠ '\n' := by
    intro l hl
    rcases List.mem_append.mp hl with hl | hl
    · rw [hP] at hl
      simp only [List.mem_cons] at hl
      rcases hl with hl | hl | hl | hl | hl | hl | hl
      · subst hl; decide
      · subst hl
        intro c hc
        rcases List.mem_append.mp hc with hc | hc
        · exact (by decide : ∀ x ∈ ("date: ").toList, x ≠ '\n') c hc
        · exact hdate c hc
      · subst hl; decide
      · subst hl; decide
      · subst hl
        rw [hhdr_eq]
        exact mkTableRow_nl_free _ hth htc
      · subst hl; decide
      · exact absurd hl (List.not_mem_nil l)
    · rw [List.mem_singleton.mp hl]
      exact hrow_nl
  have hlines : rustLines (joinLines (P ++ [row]) ++ ['\n']) = P ++ [row] :=
    rustLines_joinLines_nl _ (by rw [hP]; simp) hmem_nl
  refine ⟨joinLines (P ++ [row]) ++ ['\n'], heq, ?_, ?_, ?_⟩
  · rw [hlines, hP]
    have hb_d : isCleanDataRow (("date: ").toList ++ dv.date) = false :=
      (class_of_head 'd' (("ate: ").toList ++ dv.date) (by decide) (by decide)).1
    have hb_b : isBlankLine (("date: ").toList ++ dv.date) = false :=
      (class_of_head 'd' (("ate: ").toList ++ dv.date) (by decide) (by decide)).2
    have hhdr_nonblank : isBlankLine (hdrRow cfg) = false := by
      rw [hhdr_eq]
      exact lastGood_not_blank _ (lastGood_mkTableRow _)
    show nbarAux false (("---").toList :: (("date: ").toList ++ dv.date) :: ("---").toList
      :: [] :: hdrRow cfg :: sepRow :: [row]) = true
    rw [nbar_skip _ _ _ (by decide : isBlankLine (("---").toList) = false),
      (by decide : isCleanDataRow (("---").toList) = false)]
    rw [nbar_skip _ _ _ hb_b, hb_d]
    rw [nbar_skip _ _ _ (by decide : isBlankLine (("---").toList) = false),
      (by decide : isCleanDataRow (("---").toList) = false)]
    rw [nbarAux_cons_blank _ _ _ (by decide) (by decide)]
    simp only [Bool.not_false, Bool.true_and]
    rw [nbar_skip _ _ _ hhdr_nonblank]
    rw [nbar_skip _ _ _ (by decide : isBlankLine sepRow = false)]
    rw [nbar_skip _ _ _ hrow_nonblank]
    exact nbarAux_nil _
  · rw [hlines, hP]
    simp
  · rw [hlines, hP]
    show lastGood ((("---").toList :: (("date: ").toList ++ dv.date) :: ("---").toList
      :: [] :: hdrRow cfg :: sepRow :: [row]).getLastD []) = true
    rw [show (("---").toList :: (("date: ").toList ++ dv.date) :: ("---").toList
      :: [] :: hdrRow cfg :: sepRow :: [row]).getLastD [] = row from rfl]
    exact hrow_lastGood

end Journey

namespace Journey

/-- Every further `add_note` call on a file satisfying the table invariant
succeeds and preserves the invariant. -/
theorem runCalls_strong (cfg : VaultConfig) (dv : DateView) :
    ∀ (calls : List (Str × Str × Option Str)) (tfl : Option Str) (content : Str),
    cfg.listType = some NoteFormat.table →
    (∀ cl ∈ calls, CallOK cfg cl) →
    tableInv content →
    ∃ c', (runCalls cfg dv calls (FileSys.mk (some content) tfl)).noteFile = some c'
      ∧ tableInv c' := by
  intro calls
  induction calls with
  | nil =>
    intro tfl content hfmt hok hinv
    exact ⟨content, rfl, hinv⟩
  | cons cl rest ih =>
    intro tfl content hfmt hok hinv
    obtain ⟨h1, h2, h3⟩ := hok cl (by simp)
    obtain ⟨hnbar, hlne, hlast⟩ := hinv
    have hpre : preAux 0 (rustLines content) = true :=
      pre_of_nbar _ false 0 (Or.inr ⟨rfl, rfl⟩) hnbar
    obtain ⟨c1, hstep, hinv1⟩ := step_existing cfg dv cl.1 cl.2.1 cl.2.2 tfl content
      hfmt h3 h1 h2 hpre hlne hlast
    have hrun1 : runAddNote cfg dv cl.1 cl.2.1 cl.2.2 (FileSys.mk (some content) tfl)
        = FileSys.mk (some c1) tfl := by
      unfold runAddNote
      rw [hstep]
    have hfold : runCalls cfg dv (cl :: rest) (FileSys.mk (some content) tfl)
        = runCalls cfg dv rest (FileSys.mk (some c1) tfl) := by
      unfold runCalls
      rw [List.foldl_cons]
      rw [hrun1]
    rw [hfold]
    exact ih tfl c1 hfmt (fun x hx => hok x (List.mem_cons_of_mem cl hx)) hinv1

/-- C1 (counterexample): starting from a Table file whose two data rows
are separated by two blank lines, a single `add_note` call leaves a blank
line strictly between two data rows; and a single blank line after the
table, which the claim says is preserved, is deleted by the same call. -/
theorem claim1_counterexample :
    (∃ r1, (runAddNote cfgTableEn exDv (("c").toList) (("00:06:00").toList) none
        (FileSys.mk (some c1GapFile) none)).noteFile = some r1 ∧ hasRowGap r1 = true)
    ∧ ((rustLines c1TailFile).filter isBlankLine).length = 1
    ∧ (∃ r2, (runAddNote cfgTableEn exDv (("d").toList) (("00:07:00").toList) none
        (FileSys.mk (some c1TailFile) none)).noteFile = some r2
        ∧ ((rustLines r2).filter isBlankLine).length = 0) := by
  refine ⟨⟨_, rfl, by decide⟩, by decide, ⟨_, rfl, by decide⟩⟩

/-- C1 (amended): with the representation set to Table, no template file,
no section scoping, newline-free timestamps, expanded contents, date and
header labels, and a start that is an absent file or an existing file
whose data rows are each followed by at most one blank line and whose
last line is table-row shaped, every nonempty sequence of `add_note`
calls yields a file with no blank line strictly between two consecutive
data rows.  (Starting files with two blank lines after a data row defeat
the cleanup pass, and a single blank line after the final data row is
deleted rather than preserved — see the counterexample.) -/
theorem claim1_theorem (cfg : VaultConfig) (dv : DateView)
    (calls : List (Str × Str × Option Str)) (fs0 : FileSys)
    (hfmt : cfg.listType = some NoteFormat.table)
    (htpl : cfg.templateFile = none)
    (hdate : ∀ c ∈ dv.date, c ≠ '\n')
    (hth : ∀ c ∈ (getTableHeaders cfg).1, c ≠ '\n')
    (htc : ∀ c ∈ (getTableHeaders cfg).2, c ≠ '\n')
    (hok : ∀ cl ∈ calls, CallOK cfg cl)
    (hne : calls ≠ [])
    (hstart : fs0.noteFile = none
      ∨ ∃ existing, fs0.noteFile = some existing
          ∧ preAux 0 (rustLines existing) = true
          ∧ rustLines existing ≠ []
          ∧ lastGood ((rustLines existing).getLastD []) = true) :
    ∃ content', (runCalls cfg dv calls fs0).noteFile = some content'
      ∧ hasRowGap content' = false := by
  cases calls with
  | nil => exact absurd rfl hne
  | cons cl rest =>
    obtain ⟨h1, h2, h3⟩ := hok cl (by simp)
    rcases fs0 with ⟨nf, tfl⟩
    have hstep1 : ∃ c1, addNote cfg dv cl.1 cl.2.1 cl.2.2 (FileSys.mk nf tfl)
        = Except.ok (FileSys.mk (some c1) tfl) ∧ tableInv c1 := by
      rcases hstart with hnone | ⟨existing, hsome, hpre, hlne, hlast⟩
      · have hnf : nf = none := hnone
        subst hnf
        exact step_absent cfg dv cl.1 cl.2.1 cl.2.2 tfl hfmt htpl h3 hdate hth htc h1 h2
      · have hnf : nf = some existing := hsome
        subst hnf
        exact step_existing cfg dv cl.1 cl.2.1 cl.2.2 tfl existing hfmt h3 h1 h2 hpre
          hlne hlast
    obtain ⟨c1, hstep, hinv1⟩ := hstep1
    have hrun1 : runAddNote cfg dv cl.1 cl.2.1 cl.2.2 (FileSys.mk nf tfl)
        = FileSys.mk (some c1) tfl := by
      unfold runAddNote
      rw [hstep]
    have hfold : runCalls cfg dv (cl :: rest) (FileSys.mk nf tfl)
        = runCalls cfg dv rest (FileSys.mk (some c1) tfl) := by
      unfold runCalls
      rw [List.foldl_cons]
      rw [hrun1]
    rw [hfold]
    obtain ⟨c', hc', hcinv⟩ := runCalls_strong cfg dv rest tfl c1 hfmt
      (fun x hx => hok x (List.mem_cons_of_mem cl hx)) hinv1
    refine ⟨c', hc', ?_⟩
    unfold hasRowGap
    exact gap_of_nbar _ false 0 (Or.inr ⟨rfl, rfl⟩) hcinv.1

/-- C1 witness: two calls on an absent file under the English Table
configuration produce a gap-free file. -/
theorem claim1_witness :
    ∃ content', (runCalls cfgTableEn exDv exCalls (FileSys.mk none none)).noteFile
      = some content' ∧ hasRowGap content' = false := by
  refine claim1_theorem cfgTableEn exDv exCalls (FileSys.mk none none) rfl rfl
    (by decide) (by decide) (by decide) ?_ (by decide) (Or.inl rfl)
  intro cl hcl
  rcases List.mem_cons.mp hcl with h | h
  · subst h; exact ⟨by decide, by decide, by decide⟩
  rcases List.mem_cons.mp h with h | h
  · subst h; exact ⟨by decide, by decide, by decide⟩
  · exact absurd h (List.not_mem_nil cl)

end Journey
